import Mathlib

set_option maxRecDepth 100000

/-!
Verification of the aeroai TTS core against its specification.

The development shallowly embeds the relevant Python modules:
 * `xtts_service/cache.py`  (content-addressed audio cache),
 * `xtts_service/segmentation.py` (delimiter-first text segmentation),
 * `xtts_service/audio_edit.py` (PCM stitching with crossfades/pauses),
 * `xtts_service/radio.py` (radio-channel DSP chain).

Conventions:
 * Python `str` is modeled as `String` / `List Char`;
 * Python `float` is modeled by the exact fraction type `Frac` (exact rational
   arithmetic standing in for IEEE doubles; every numeric fact proved below
   has a margin far larger than double-rounding error);
 * Python `int(x)` on a float is truncation toward zero (`Frac.trunc`);
 * `bytes` values are opaque `List Nat`;
 * a Python exception escaping a function is modeled by `Option`/`none`.
-/

namespace Aero

/-- An exact fraction `num / den`, the model of a Python float.  All
fractions built below have a positive denominator (integer embeddings have
denominator 1 and the arithmetic preserves positivity), which the comparison
operations assume. -/
structure Frac where
  num : ℤ
  den : ℤ
deriving DecidableEq

namespace Frac

/-- Embed an integer. -/
def ofInt (n : ℤ) : Frac := ⟨n, 1⟩

def add (a b : Frac) : Frac := ⟨a.num * b.den + b.num * a.den, a.den * b.den⟩

def sub (a b : Frac) : Frac := ⟨a.num * b.den - b.num * a.den, a.den * b.den⟩

def mul (a b : Frac) : Frac := ⟨a.num * b.num, a.den * b.den⟩

def div (a b : Frac) : Frac := ⟨a.num * b.den, a.den * b.num⟩

/-- `a < b` (cross-multiplied; denominators positive). -/
def blt (a b : Frac) : Bool := a.num * b.den < b.num * a.den

/-- `a ≤ b` (cross-multiplied; denominators positive). -/
def ble (a b : Frac) : Bool := a.num * b.den ≤ b.num * a.den

/-- Float equality `a == b` (cross-multiplied; denominators positive). -/
def beq (a b : Frac) : Bool := a.num * b.den = b.num * a.den

/-- Python `int()` applied to a float: truncation toward zero. -/
def trunc (a : Frac) : ℤ := Int.tdiv a.num a.den

/-- Mathematical floor of the fraction (denominator positive). -/
def floor (a : Frac) : ℤ := Int.fdiv a.num a.den

end Frac

/-- Round-half-even of a fraction, modelling the rounding used by Python's
fixed-point float formatting (`f"{x:.3f}"` rounds the scaled value this way). -/
def roundHalfEven (x : Frac) : ℤ :=
  let f := x.floor
  let r := x.sub (Frac.ofInt f)
  if r.blt ⟨1, 2⟩ then f
  else if Frac.blt ⟨1, 2⟩ r then f + 1
  else if f % 2 = 0 then f else f + 1

/-- A decimal digit character. -/
def digitChar (d : Nat) : Char := Char.ofNat (48 + d % 10)

/-- Decimal digits of a natural number (most-significant first), with fuel. -/
def natCharsAux : Nat → Nat → List Char
  | 0, _ => []
  | _, 0 => []
  | fuel + 1, n => natCharsAux fuel (n / 10) ++ [digitChar (n % 10)]

/-- Decimal rendering of a natural number. -/
def natChars (n : Nat) : List Char := if n = 0 then ['0'] else natCharsAux n n

/-- Python `f"{q:.3f}"`: fixed-point rendering with three digits after the
point, rounding half-even.  (Negative-zero results are rendered with the sign
of the operand, matching CPython; rationals have no negative zero, so the
`q < 0` test is exact here.) -/
def format_3f (q : Frac) : List Char :=
  let n := roundHalfEven (q.mul (Frac.ofInt 1000))
  let a := n.natAbs
  let frac := natChars (a % 1000)
  let fracPad := List.replicate (3 - frac.length) '0' ++ frac
  (if q.blt (Frac.ofInt 0) then ['-'] else []) ++ natChars (a / 1000) ++ '.' :: fracPad

/-- `sep.join(parts)` for a single-character separator. -/
def joinSep (sep : Char) : List (List Char) → List Char
  | [] => []
  | [w] => w
  | w :: ws => w ++ sep :: joinSep sep ws

/-- The whitespace characters recognized by Python `str.split()` (ASCII part;
the source never feeds non-ASCII whitespace to the splitter). -/
def pyIsSpace (c : Char) : Bool :=
  c = ' ' || c = '\t' || c = '\n' || c = '\r' || c = '\x0b' || c = '\x0c'

/-- Split at every whitespace character, keeping empty parts (the standard
separator-split; `str.split()` is this followed by discarding empties). -/
def splitSp : List Char → List (List Char)
  | [] => [[]]
  | c :: cs =>
    if pyIsSpace c then [] :: splitSp cs
    else (splitSp cs).modifyHead (fun w => c :: w)

/-- Python `str.split()` with no separator: maximal runs of non-whitespace. -/
def pyWords (cs : List Char) : List (List Char) :=
  (splitSp cs).filter (fun w => !w.isEmpty)

/-- `" ".join(text.strip().split())` on character lists — the normalization
used both by `cache._normalize_text` and `segmentation._normalize_segment_text`
(the leading `strip()` is redundant because `split()` discards edge whitespace). -/
def normalize_chars (cs : List Char) : List Char := joinSep ' ' (pyWords cs)

/-- `cache._normalize_text`. -/
def normalize_text (s : String) : String := String.mk (normalize_chars s.data)

/-- `cache._hash_key`: the SHA-256 hexdigest of the UTF-8 encoded payload.
The digest is a fixed deterministic function of the payload with no salt; the
spec additionally assumes it collision-free ("two requests produce
byte-identical audio iff all seven fields match"), so it is modeled by an
injective stand-in.  Nothing below depends on the digest beyond determinism
and that assumed injectivity. -/
def hash_key (payload : List Char) : List Char := payload

/-- Python `s or dflt` for strings: `dflt` when `s` is empty. -/
def pyOrStr (s dflt : String) : String := if s = "" then dflt else s

/-- `TtsCache.make_key`: join the seven key fields with `"|"` and digest.
`selfModelVersion` is the `self.model_version` fallback used when the
`model_version` argument is falsy. -/
def make_key (selfModelVersion model_version voice_id : String)
    (role radio_profile : Option String) (speed : Frac)
    (language text_norm : String) : String :=
  let payload := joinSep '|'
    [(pyOrStr model_version selfModelVersion).data,
     voice_id.data,
     (role.getD "").data,
     (radio_profile.getD "").data,
     format_3f speed,
     language.data,
     text_norm.data]
  String.mk (hash_key payload)

/-- `TtsCache._sharded_path`: `cache_dir/voice_id/key[:2]/key[2:4]/key.wav`. -/
def sharded_path (cache_dir voice_id key : String) : String :=
  cache_dir ++ "/" ++ voice_id ++ "/" ++ String.mk (key.data.take 2) ++ "/" ++
    String.mk ((key.data.drop 2).take 2) ++ "/" ++ key ++ ".wav"

/-- One row of the sqlite `tts_cache` table (`db.py`). -/
structure CacheRecord where
  key : String
  voice_id : String
  role : Option String
  radio_profile : Option String
  speed : Frac
  language : String
  text_norm : String
  path : String
  byteLen : Nat
  created_at : String
  last_hit : Option String
  hit_count : Option Nat
  model_version : String
deriving DecidableEq

/-- The cache's persistent state: the sqlite index (a map keyed by the
primary key `key`) and the blob file tree (a map from path to bytes). -/
structure CacheState where
  db : String → Option CacheRecord
  fs : String → Option (List Nat)

/-- The dict returned by `TtsCache.get_cached` on a hit. -/
structure CachedEntry where
  key : String
  path : String
  byteLen : Nat
  record : CacheRecord
  audio : List Nat

/-- `TtsCache.get_cached`: fetch the record; `None` when the record is absent
or its backing blob file does not exist; otherwise the record plus the blob. -/
def get_cached (st : CacheState) (key : String) : Option CachedEntry :=
  match st.db key with
  | none => none
  | some r =>
    match st.fs r.path with
    | none => none
    | some data => some ⟨key, r.path, r.byteLen, r, data⟩

/-- `CacheDB.record_hit`: bump `hit_count` (NULL coalesced to 0) and set
`last_hit` on the row with the given key; no-op when the row is absent. -/
def record_hit (db : String → Option CacheRecord) (key now : String) :
    String → Option CacheRecord := fun k =>
  if k = key then
    match db k with
    | some r => some { r with hit_count := some (r.hit_count.getD 0 + 1), last_hit := some now }
    | none => none
  else db k

/-- `CacheDB.upsert`: `INSERT OR REPLACE` keyed on the primary key. -/
def db_upsert (db : String → Option CacheRecord) (r : CacheRecord) :
    String → Option CacheRecord := fun k =>
  if k = r.key then some r else db k

/-- The dict returned by `TtsCache.get_or_generate`, plus a ghost counter of
how many times the generator callback was invoked during the call. -/
structure GenResult where
  key : String
  path : String
  byteLen : Nat
  from_cache : Bool
  audio : Option (List Nat)
  genCalls : Nat
deriving DecidableEq

/-- `TtsCache.get_or_generate`.  The generator callback is a pure thunk, so it
is modeled by the byte-string it would return; `genCalls` records whether it
was invoked.  `now` stands for `datetime.now().isoformat()` at call time. -/
def get_or_generate (st : CacheState) (cache_dir selfModelVersion now : String)
    (model_version voice_id : String) (role radio_profile : Option String)
    (speed : Frac) (language text : String)
    (generator : List Nat) (return_audio : Bool) : GenResult × CacheState :=
  let text_norm := normalize_text text
  let key := make_key selfModelVersion model_version voice_id role radio_profile
    speed language text_norm
  match get_cached st key with
  | some c =>
    let st' : CacheState := { st with db := record_hit st.db key now }
    ({ key := key, path := c.path, byteLen := c.byteLen, from_cache := true,
       audio := if return_audio then some c.audio else none, genCalls := 0 }, st')
  | none =>
    let audio_bytes := generator
    let path := sharded_path cache_dir voice_id key
    let newRec : CacheRecord :=
      { key := key, voice_id := voice_id, role := role, radio_profile := radio_profile,
        speed := speed, language := language, text_norm := text_norm, path := path,
        byteLen := audio_bytes.length, created_at := now, last_hit := none,
        hit_count := some 0, model_version := pyOrStr model_version selfModelVersion }
    let st' : CacheState :=
      { db := db_upsert st.db newRec,
        fs := fun p => if p = path then some audio_bytes else st.fs p }
    ({ key := key, path := path, byteLen := audio_bytes.length, from_cache := false,
       audio := if return_audio then some audio_bytes else none, genCalls := 1 }, st')

/-! ### Helper lemmas about the cache embedding -/

theorem get_cached_eq_some {st : CacheState} {key : String} {r0 : CacheRecord}
    {data : List Nat} (hdb : st.db key = some r0) (hfs : st.fs r0.path = some data) :
    get_cached st key = some ⟨key, r0.path, r0.byteLen, r0, data⟩ := by
  simp [get_cached, hdb, hfs]

theorem get_cached_eq_none_db {st : CacheState} {key : String}
    (hdb : st.db key = none) : get_cached st key = none := by
  simp [get_cached, hdb]

theorem get_cached_eq_none_fs {st : CacheState} {key : String} {r0 : CacheRecord}
    (hdb : st.db key = some r0) (hfs : st.fs r0.path = none) :
    get_cached st key = none := by
  simp [get_cached, hdb, hfs]

theorem digitChar_ne_pipe (d : Nat) : digitChar d ≠ '|' := by
  unfold digitChar
  have h : d % 10 < 10 := Nat.mod_lt _ (by norm_num)
  set k := d % 10 with hk
  interval_cases k <;> decide

theorem natCharsAux_digits {fuel n : Nat} {c : Char}
    (hc : c ∈ natCharsAux fuel n) : ∃ d, c = digitChar d := by
  induction fuel generalizing n with
  | zero => simp [natCharsAux] at hc
  | succ fuel ih =>
    cases n with
    | zero => simp [natCharsAux] at hc
    | succ n =>
      simp only [natCharsAux, List.mem_append, List.mem_singleton] at hc
      rcases hc with hc | hc
      · exact ih hc
      · exact ⟨_, hc⟩

theorem natChars_ne_pipe {n : Nat} {c : Char} (hc : c ∈ natChars n) : c ≠ '|' := by
  unfold natChars at hc
  split at hc
  · simp at hc; subst hc; decide
  · obtain ⟨d, hd⟩ := natCharsAux_digits hc
    exact hd ▸ digitChar_ne_pipe d

theorem format_3f_pipe_free (q : Frac) : '|' ∉ format_3f q := by
  intro hmem
  simp only [format_3f, List.mem_append, List.mem_cons] at hmem
  rcases hmem with (h | h) | h | h | h
  · split at h <;> simp at h
  · exact natChars_ne_pipe h rfl
  · exact absurd h (by decide)
  · exact absurd (List.eq_of_mem_replicate h) (by decide)
  · exact natChars_ne_pipe h rfl

/-- Splitting a pipe-joined payload at the first `'|'` is unambiguous when the
first field is pipe-free. -/
theorem append_pipe_inj {u u' v v' : List Char} (hu : '|' ∉ u) (hu' : '|' ∉ u')
    (h : u ++ '|' :: v = u' ++ '|' :: v') : u = u' ∧ v = v' := by
  induction u generalizing u' with
  | nil =>
    cases u' with
    | nil => simpa using h
    | cons c t =>
      rw [List.nil_append, List.cons_append, List.cons.injEq] at h
      exact absurd (h.1 ▸ List.mem_cons_self c t) hu'
  | cons c t ih =>
    cases u' with
    | nil =>
      rw [List.nil_append, List.cons_append, List.cons.injEq] at h
      exact absurd (h.1.symm ▸ List.mem_cons_self c t) hu
    | cons c' t' =>
      rw [List.cons_append, List.cons_append, List.cons.injEq] at h
      have ht := ih (fun hm => hu (List.mem_cons_of_mem c hm))
        (fun hm => hu' (List.mem_cons_of_mem c' hm)) h.2
      exact ⟨by rw [h.1, ht.1], ht.2⟩

/-! ### C2: cache-key separation -/

/-- C2 (counterexample): the claim "make_key produces equal cache keys iff all
seven fields match; changing any single field changes the key" fails on the
code.  Two tuples that differ only in the speed field (1.0 vs 1.0004, distinct
floats) produce the same key, because the key renders speed as
`f"{speed:.3f}"`; and a pipe character inside one field lets two tuples with
two differing fields collide, because the fields are joined with `"|"` before
hashing. -/
theorem make_key_counterexample :
    (⟨1, 1⟩ : Frac) ≠ ⟨10004, 10000⟩ ∧
    make_key "xtts" "xtts" "v1" (some "tower") none ⟨1, 1⟩ "en" "easy one two three" =
      make_key "xtts" "xtts" "v1" (some "tower") none ⟨10004, 10000⟩ "en" "easy one two three" ∧
    ("a|b", "x") ≠ (("a", "b|x") : String × String) ∧
    make_key "m" "m" "a|b" (some "x") none ⟨1, 1⟩ "en" "t" =
      make_key "m" "m" "a" (some "b|x") none ⟨1, 1⟩ "en" "t" :=
  ⟨by decide, by decide, by decide, by decide⟩

/-- C2 (amended): for key tuples whose string fields are pipe-free and whose
model-version field is non-empty, `make_key` (with `role`/`radio_profile`
passed as strings, `None` being indistinguishable from `""` by construction)
produces equal keys iff the six string fields are equal and the two speeds
have the same three-decimal rendering; in particular changing any single
pipe-free field — the speed at 3-decimal resolution — changes the key. -/
theorem make_key_amended (d mv mv' v v' r r' rp rp' lang lang' t t' : String)
    (s s' : Frac)
    (hmv0 : mv ≠ "") (hmv0' : mv' ≠ "")
    (hmv : '|' ∉ mv.data) (hmv' : '|' ∉ mv'.data)
    (hv : '|' ∉ v.data) (hv' : '|' ∉ v'.data)
    (hr : '|' ∉ r.data) (hr' : '|' ∉ r'.data)
    (hrp : '|' ∉ rp.data) (hrp' : '|' ∉ rp'.data)
    (hlang : '|' ∉ lang.data) (hlang' : '|' ∉ lang'.data)
    (ht : '|' ∉ t.data) (ht' : '|' ∉ t'.data) :
    (make_key d mv v (some r) (some rp) s lang t =
      make_key d mv' v' (some r') (some rp') s' lang' t') ↔
    (mv = mv' ∧ v = v' ∧ r = r' ∧ rp = rp' ∧
      format_3f s = format_3f s' ∧ lang = lang' ∧ t = t') := by
  constructor
  · intro h
    simp only [make_key, hash_key, pyOrStr, if_neg hmv0, if_neg hmv0',
      Option.getD_some, joinSep] at h
    rw [String.ext_iff] at h
    simp only [] at h
    obtain ⟨h1, h⟩ := append_pipe_inj hmv hmv' h
    obtain ⟨h2, h⟩ := append_pipe_inj hv hv' h
    obtain ⟨h3, h⟩ := append_pipe_inj hr hr' h
    obtain ⟨h4, h⟩ := append_pipe_inj hrp hrp' h
    obtain ⟨h5, h⟩ := append_pipe_inj (format_3f_pipe_free s) (format_3f_pipe_free s') h
    obtain ⟨h6, h7⟩ := append_pipe_inj hlang hlang' h
    exact ⟨String.ext h1, String.ext h2, String.ext h3, String.ext h4, h5,
      String.ext h6, String.ext h7⟩
  · rintro ⟨e1, e2, e3, e4, e5, e6, e7⟩
    subst e1; subst e2; subst e3; subst e4; subst e6; subst e7
    simp only [make_key, hash_key, e5]

/-- Closed witness for `make_key_amended` at distinct role tags. -/
theorem make_key_amended_witness :
    (make_key "xtts" "xtts" "v1" (some "tower") (some "") ⟨1, 1⟩ "en" "easy" =
      make_key "xtts" "xtts" "v1" (some "ground") (some "") ⟨1, 1⟩ "en" "easy") ↔
    ("xtts" = "xtts" ∧ "v1" = "v1" ∧ "tower" = "ground" ∧ ("" : String) = "" ∧
      format_3f ⟨1, 1⟩ = format_3f ⟨1, 1⟩ ∧ "en" = "en" ∧ "easy" = "easy") :=
  make_key_amended "xtts" "xtts" "xtts" "v1" "v1" "tower" "ground" "" "" "en" "en"
    "easy" "easy" ⟨1, 1⟩ ⟨1, 1⟩ (by decide) (by decide) (by decide) (by decide)
    (by decide) (by decide) (by decide) (by decide) (by decide) (by decide)
    (by decide) (by decide) (by decide) (by decide)

/-! ### C1: repeated `get_or_generate` with the same key tuple -/

/-- C1 (confirmed): from any cache state, calling `get_or_generate` twice in
succession with the same key-field tuple invokes the generator at most once in
total; the second call is a cache hit (`from_cache = true`), does not call the
generator, and returns exactly the bytes the first call returned (which on a
miss are the bytes it persisted). -/
theorem get_or_generate_twice
    (st : CacheState) (cache_dir smv now1 now2 mv vid : String)
    (role rp : Option String) (speed : Frac) (lang text : String) (gen : List Nat) :
    let c1 := get_or_generate st cache_dir smv now1 mv vid role rp speed lang text gen true
    let c2 := get_or_generate c1.2 cache_dir smv now2 mv vid role rp speed lang text gen true
    c1.1.genCalls + c2.1.genCalls ≤ 1 ∧ c2.1.from_cache = true ∧
      c2.1.genCalls = 0 ∧ c2.1.audio = c1.1.audio ∧ c1.1.audio.isSome = true := by
  dsimp only
  cases hdb : st.db (make_key smv mv vid role rp speed lang (normalize_text text)) with
  | none =>
    simp [get_or_generate, get_cached, record_hit, db_upsert, hdb]
  | some r0 =>
    cases hfs : st.fs r0.path with
    | none =>
      simp [get_or_generate, get_cached, record_hit, db_upsert, hdb, hfs]
    | some data =>
      simp [get_or_generate, get_cached, record_hit, db_upsert, hdb, hfs]

/-! ### C6: record present, blob missing — treated as a miss -/

/-- C6 (confirmed): when the index has a record for the key but the backing
blob file is absent, `get_or_generate` treats the lookup as a miss: it raises
no error, invokes the generator exactly once, re-persists the blob at the
sharded path, upserts the record (hit count reset to zero, path pointing at
the new blob), and returns the regenerated bytes with `from_cache = false`. -/
theorem get_or_generate_missing_blob
    (st : CacheState) (cache_dir smv now mv vid : String)
    (role rp : Option String) (speed : Frac) (lang text : String) (gen : List Nat)
    (key : String) (r0 : CacheRecord)
    (hk : key = make_key smv mv vid role rp speed lang (normalize_text text))
    (hdb : st.db key = some r0) (hfs : st.fs r0.path = none) :
    let out := get_or_generate st cache_dir smv now mv vid role rp speed lang text gen true
    out.1.from_cache = false ∧ out.1.genCalls = 1 ∧ out.1.audio = some gen ∧
      out.2.fs (sharded_path cache_dir vid key) = some gen ∧
      ∃ r1, out.2.db key = some r1 ∧ r1.path = sharded_path cache_dir vid key ∧
        r1.hit_count = some 0 := by
  dsimp only
  subst hk
  simp [get_or_generate, get_cached, record_hit, db_upsert, hdb, hfs]

/-- Closed witness for `get_or_generate_missing_blob`: a concrete one-record
state whose blob file is gone. -/
theorem get_or_generate_missing_blob_witness :
    let key := make_key "m" "m" "v" none none ⟨1, 1⟩ "en" "hi"
    let r0 : CacheRecord := ⟨key, "v", none, none, ⟨1, 1⟩, "en", "hi", "p", 4,
      "t0", none, some 0, "m"⟩
    let st : CacheState := ⟨fun k => if k = key then some r0 else none, fun _ => none⟩
    let out := get_or_generate st "cache" "m" "t1" "m" "v" none none ⟨1, 1⟩ "en" "hi"
      [9, 9] true
    out.1.from_cache = false ∧ out.1.genCalls = 1 ∧ out.1.audio = some [9, 9] ∧
      out.2.fs (sharded_path "cache" "v" key) = some [9, 9] ∧
      ∃ r1, out.2.db key = some r1 ∧ r1.path = sharded_path "cache" "v" key ∧
        r1.hit_count = some 0 := by
  dsimp only
  exact get_or_generate_missing_blob _ "cache" "m" "t1" "m" "v" none none ⟨1, 1⟩
    "en" "hi" [9, 9] (make_key "m" "m" "v" none none ⟨1, 1⟩ "en" "hi")
    ⟨make_key "m" "m" "v" none none ⟨1, 1⟩ "en" "hi", "v", none, none, ⟨1, 1⟩,
      "en", "hi", "p", 4, "t0", none, some 0, "m"⟩
    (by decide) (by simp) rfl

/-! ## Segmentation (`segmentation.py`) -/

/-- `_PUNCT_BREAKS`. -/
def PUNCT_BREAKS : List Char := ['.', '?', '!', ';']

/-- The accumulation loop of `_split_punct`: `buf` holds the pending characters
in reverse order. -/
def split_punct_aux : List Char → List Char → List (List Char)
  | [], buf =>
    let tail := normalize_chars buf.reverse
    if tail.isEmpty then [] else [tail]
  | c :: cs, buf =>
    if c ∈ PUNCT_BREAKS then
      let seg := normalize_chars (c :: buf).reverse
      if seg.isEmpty then split_punct_aux cs [] else seg :: split_punct_aux cs []
    else split_punct_aux cs (c :: buf)

/-- `_split_punct`: split after each sentence-ending punctuation character,
keeping the punctuation attached, normalizing and dropping empty pieces. -/
def split_punct (cs : List Char) : List (List Char) := split_punct_aux cs []

/-- `word[i:i+n] for i in range(0, len(word), n)`, with fuel (`n ≥ 1` consumes
at least one character per step, so fuel `l.length` always suffices). -/
def chunkEveryAux (n : Nat) : Nat → List Char → List (List Char)
  | 0, _ => []
  | _, [] => []
  | fuel + 1, l => l.take n :: chunkEveryAux n fuel (l.drop n)

/-- Hard character-wise slicing of an over-long token. -/
def chunkEvery (n : Nat) (l : List Char) : List (List Char) := chunkEveryAux n l.length l

/-- The greedy word-accumulation loop of `_split_long_segment` over the word
list, carrying `(chunks, current)`. -/
def split_fold (maxLen : Nat) : List (List Char) → List (List Char) × List Char →
    List (List Char) × List Char
  | [], st => st
  | w :: ws, (chunks, current) =>
    if current.isEmpty then
      if w.length ≤ maxLen then split_fold maxLen ws (chunks, w)
      else split_fold maxLen ws (chunks ++ chunkEvery maxLen w, [])
    else
      let cand := current ++ ' ' :: w
      if cand.length ≤ maxLen then split_fold maxLen ws (chunks, cand)
      else split_fold maxLen ws (chunks ++ [current], w)

/-- The trailing-chunk merge of `_split_long_segment`: merge the last chunk
into its predecessor when it is shorter than `minLen` and the merge stays
within `maxLen`. -/
def merge_tail (maxLen minLen : Nat) : List (List Char) → List (List Char)
  | [] => []
  | [c] => [c]
  | [c1, c2] =>
    if c2.length < minLen ∧ (c1 ++ ' ' :: c2).length ≤ maxLen then [c1 ++ ' ' :: c2]
    else [c1, c2]
  | c1 :: c2 :: c3 :: rest => c1 :: merge_tail maxLen minLen (c2 :: c3 :: rest)

/-- `_split_long_segment` (the caller passes `max_len = 220`, `min_len = 160`). -/
def split_long_segment (maxLen minLen : Nat) (seg0 : List Char) : List (List Char) :=
  let seg := normalize_chars seg0
  if seg.isEmpty then []
  else if seg.length ≤ maxLen then [seg]
  else
    let st := split_fold maxLen (pyWords seg) ([], [])
    let chunks := if st.2.isEmpty then st.1 else st.1 ++ [st.2]
    let merged := merge_tail maxLen minLen chunks
    (merged.map normalize_chars).filter (fun c => !c.isEmpty)

/-- `_clamp_pause` (the callers pass an int or None, so the `except` fallback
is unreachable). -/
def clamp_pause (val : Option Int) (dflt : Int) : Int :=
  match val with
  | none => dflt
  | some v => max 0 (min v 1000)

inductive DelimiterMode
  | pipe
  | newline
  | punct
  | none
deriving DecidableEq

inductive BoundaryType
  | hard
  | soft
deriving DecidableEq

/-- The record returned by `segment_text`. -/
structure SegmentationResult where
  segments : List (List Char)
  delimiter : DelimiterMode
  pauses_ms : List Int
  boundary_types : List BoundaryType
deriving DecidableEq

/-- `raw.split(sep)` for a one-character separator (empty parts preserved). -/
def splitChar (sep : Char) : List Char → List (List Char)
  | [] => [[]]
  | c :: cs =>
    if c = sep then [] :: splitChar sep cs
    else (splitChar sep cs).modifyHead (fun w => c :: w)

/-- `re.split(r"\r?\n+", s)` with fuel: split on each maximal match of an
optional carriage return followed by a run of newlines (empty parts
preserved; each step consumes at least one character, so fuel `l.length`
always suffices). -/
def splitNLAux : Nat → List Char → List (List Char)
  | 0, l => [l]
  | fuel + 1, [] => [[]]
  | fuel + 1, c :: rest =>
    if c = '\n' then [] :: splitNLAux fuel (rest.dropWhile (fun d => d = '\n'))
    else if c = '\r' ∧ rest.head? = some '\n' then
      [] :: splitNLAux fuel (rest.tail.dropWhile (fun d => d = '\n'))
    else (splitNLAux fuel rest).modifyHead (fun w => c :: w)

def splitNL (cs : List Char) : List (List Char) := splitNLAux cs.length cs

/-- The boundary classification of `segment_text`'s inner loop: a non-first
sub-chunk is always `soft`; the first sub-chunk of a base segment is `hard`
exactly in pipe/newline mode. -/
def boundary_for (delim : DelimiterMode) (subIdx : Nat) : BoundaryType :=
  if 0 < subIdx then .soft
  else if delim = .pipe ∨ delim = .newline then .hard else .soft

/-- The inner `for sub_idx, sub in enumerate(subs)` loop of `segment_text`:
append each sub-chunk, preceding every sub-chunk except the very first overall
with a boundary type and its pause. -/
def push_subs (delim : DelimiterMode) (basePause wrapPause : Int) :
    Nat → List (List Char) →
    List (List Char) × List Int × List BoundaryType →
    List (List Char) × List Int × List BoundaryType
  | _, [], st => st
  | subIdx, sub :: rest, (segs, ps, bs) =>
    if segs.isEmpty then
      push_subs delim basePause wrapPause (subIdx + 1) rest (segs ++ [sub], ps, bs)
    else
      let b := boundary_for delim subIdx
      push_subs delim basePause wrapPause (subIdx + 1) rest
        (segs ++ [sub], ps ++ [if b = .hard then basePause else wrapPause], bs ++ [b])

/-- The outer `for base_idx, base_seg in enumerate(base)` loop of
`segment_text`. -/
def run_base (delim : DelimiterMode) (bp wp : Int) (maxLen minLen : Nat) :
    List (List Char) →
    List (List Char) × List Int × List BoundaryType →
    List (List Char) × List Int × List BoundaryType
  | [], st => st
  | b :: rest, st =>
    run_base delim bp wp maxLen minLen rest
      (push_subs delim bp wp 0 (split_long_segment maxLen minLen b) st)

/-- `segment_text`: delimiter-first segmentation (pipes, then newlines, then
sentence punctuation), overlong chunks re-split at word boundaries, pauses
clamped to [0, 1000] ms with defaults 70 (hard) / 35 (soft). -/
def segment_text (cs : List Char) (base_pause_ms wrap_pause_ms : Option Int) :
    SegmentationResult :=
  let pr :=
    if '|' ∈ cs then
      (DelimiterMode.pipe, ((splitChar '|' cs).map normalize_chars).filter (fun p => !p.isEmpty))
    else if '\n' ∈ cs ∨ '\r' ∈ cs then
      (DelimiterMode.newline, ((splitNL cs).map normalize_chars).filter (fun p => !p.isEmpty))
    else if PUNCT_BREAKS.any (fun p => p ∈ cs) then
      (DelimiterMode.punct, split_punct cs)
    else
      (DelimiterMode.none, split_punct cs)
  let delim := pr.1
  let base := pr.2
  let hard_pause_default : Int := 70
  let soft_pause_default : Int := 35
  let base_pause_default : Int :=
    if delim = .pipe ∨ delim = .newline then hard_pause_default else soft_pause_default
  let base_pause := clamp_pause base_pause_ms base_pause_default
  let wrap_pause := clamp_pause wrap_pause_ms soft_pause_default
  let out := run_base delim base_pause wrap_pause 220 160 base ([], [], [])
  ⟨out.1, delim, out.2.1, out.2.2⟩

/-- `split_segments`. -/
def split_segments (cs : List Char) : List (List Char) :=
  (segment_text cs Option.none Option.none).segments

/-! ### Cleanliness infrastructure: normalized text is a space-join of
non-empty, whitespace-free words, and `normalize_chars` fixes such joins. -/

/-- A word produced by `str.split()`: non-empty and whitespace-free. -/
def CleanWord (w : List Char) : Prop := w ≠ [] ∧ ∀ c ∈ w, pyIsSpace c = false

/-- A chunk built by joining one or more clean words with single spaces —
exactly the strings fixed by `_normalize_segment_text`. -/
def CleanChunk (c : List Char) : Prop :=
  ∃ ws, ws ≠ [] ∧ (∀ w ∈ ws, CleanWord w) ∧ c = joinSep ' ' ws

theorem modifyHead_comp {α : Type} (f g : α → α) (l : List α) :
    (l.modifyHead g).modifyHead f = l.modifyHead (fun x => f (g x)) := by
  cases l <;> simp [List.modifyHead]

theorem splitSp_ne_nil (cs : List Char) : splitSp cs ≠ [] := by
  induction cs with
  | nil => simp [splitSp]
  | cons c cs ih =>
    simp only [splitSp]
    split
    · simp
    · cases h : splitSp cs with
      | nil => exact absurd h ih
      | cons p ps => simp [List.modifyHead]

theorem splitSp_nospace :
    ∀ cs, ∀ p ∈ splitSp cs, ∀ c ∈ p, pyIsSpace c = false := by
  intro cs
  induction cs with
  | nil => intro p hp c hc; simp [splitSp] at hp; subst hp; simp at hc
  | cons a cs ih =>
    intro p hp c hc
    simp only [splitSp] at hp
    by_cases ha : pyIsSpace a = true
    · rw [if_pos ha, List.mem_cons] at hp
      rcases hp with hp | hp
      · subst hp; simp at hc
      · exact ih p hp c hc
    · rw [if_neg ha] at hp
      cases h : splitSp cs with
      | nil => exact absurd h (splitSp_ne_nil cs)
      | cons q qs =>
        rw [h, List.modifyHead, List.mem_cons] at hp
        rcases hp with hp | hp
        · subst hp
          rw [List.mem_cons] at hc
          rcases hc with hc | hc
          · subst hc; simpa using ha
          · exact ih q (h ▸ List.mem_cons_self q qs) c hc
        · exact ih p (h ▸ List.mem_cons_of_mem q hp) c hc

theorem pyWords_clean {cs : List Char} : ∀ w ∈ pyWords cs, CleanWord w := by
  intro w hw
  simp only [pyWords, List.mem_filter, Bool.not_eq_true'] at hw
  refine ⟨fun hnil => by simp [hnil] at hw, splitSp_nospace cs w hw.1⟩

theorem splitSp_append_nospace {u : List Char} (hu : ∀ c ∈ u, pyIsSpace c = false) :
    ∀ t, splitSp (u ++ t) = (splitSp t).modifyHead (fun h => u ++ h) := by
  induction u with
  | nil =>
    intro t
    cases h : splitSp t with
    | nil => exact absurd h (splitSp_ne_nil t)
    | cons p ps => simp [h, List.modifyHead]
  | cons c u ih =>
    intro t
    have hc : pyIsSpace c = false := hu c (List.mem_cons_self c u)
    have hu' : ∀ d ∈ u, pyIsSpace d = false := fun d hd => hu d (List.mem_cons_of_mem c hd)
    have hstep : splitSp ((c :: u) ++ t) =
        (splitSp (u ++ t)).modifyHead (fun w => c :: w) := by
      show splitSp (c :: (u ++ t)) = _
      simp only [splitSp, hc, Bool.false_eq_true, if_false]
    rw [hstep, ih hu', modifyHead_comp]
    rfl

theorem pyWords_join : ∀ {ws : List (List Char)}, (∀ w ∈ ws, CleanWord w) →
    pyWords (joinSep ' ' ws) = ws := by
  intro ws
  induction ws with
  | nil => intro _; decide
  | cons w ws ih =>
    intro hclean
    have hw : CleanWord w := hclean w (List.mem_cons_self w ws)
    have hws : ∀ v ∈ ws, CleanWord v := fun v hv => hclean v (List.mem_cons_of_mem w hv)
    cases ws with
    | nil =>
      show pyWords (joinSep ' ' [w]) = [w]
      have h1 : joinSep ' ' [w] = w ++ [] := by simp [joinSep]
      rw [h1, pyWords, splitSp_append_nospace hw.2]
      have h2 : w.isEmpty = false := by
        cases w with
        | nil => exact absurd rfl hw.1
        | cons a l => rfl
      simp [splitSp, List.modifyHead, List.filter, h2]
    | cons w2 ws2 =>
      show pyWords (w ++ ' ' :: joinSep ' ' (w2 :: ws2)) = w :: w2 :: ws2
      rw [pyWords, splitSp_append_nospace hw.2]
      have hsp : splitSp (' ' :: joinSep ' ' (w2 :: ws2)) =
          [] :: splitSp (joinSep ' ' (w2 :: ws2)) := by
        simp [splitSp, pyIsSpace]
      rw [hsp, List.modifyHead, List.filter]
      have : (!(w ++ []).isEmpty) = true := by
        simp [List.isEmpty_iff]; exact hw.1
      rw [List.append_nil] at this ⊢
      rw [this]
      have := ih hws
      rw [pyWords] at this
      rw [this]

theorem normalize_chars_join {ws : List (List Char)} (h : ∀ w ∈ ws, CleanWord w) :
    normalize_chars (joinSep ' ' ws) = joinSep ' ' ws := by
  rw [normalize_chars, pyWords_join h]

theorem CleanChunk.normalize_fix {c : List Char} (h : CleanChunk c) :
    normalize_chars c = c := by
  obtain ⟨ws, -, hclean, rfl⟩ := h
  exact normalize_chars_join hclean

theorem CleanChunk.ne_nil {c : List Char} (h : CleanChunk c) : c ≠ [] := by
  obtain ⟨ws, hne, hclean, rfl⟩ := h
  cases ws with
  | nil => exact absurd rfl hne
  | cons w ws =>
    have hw : CleanWord w := hclean w (List.mem_cons_self w ws)
    cases ws with
    | nil => simpa [joinSep] using hw.1
    | cons w2 ws2 =>
      show w ++ ' ' :: joinSep ' ' (w2 :: ws2) ≠ []
      simp

theorem CleanWord.chunk {w : List Char} (h : CleanWord w) : CleanChunk w :=
  ⟨[w], by simp, by simpa using h, by simp [joinSep]⟩

theorem joinSep_append {sep : Char} :
    ∀ {ws1 ws2 : List (List Char)}, ws1 ≠ [] → ws2 ≠ [] →
    joinSep sep (ws1 ++ ws2) = joinSep sep ws1 ++ sep :: joinSep sep ws2 := by
  intro ws1
  induction ws1 with
  | nil => intro ws2 h _; exact absurd rfl h
  | cons w ws ih =>
    intro ws2 _ h2
    cases ws with
    | nil =>
      cases ws2 with
      | nil => exact absurd rfl h2
      | cons v vs => simp [joinSep]
    | cons w2 ws2' =>
      have := ih (by simp) h2
      show joinSep sep (w :: (w2 :: ws2') ++ ws2) = _
      have hcons : (w :: (w2 :: ws2')) ++ ws2 = w :: ((w2 :: ws2') ++ ws2) := rfl
      rw [hcons]
      have h3 : ∀ (u : List Char) us, us ≠ [] → joinSep sep (u :: us) =
          u ++ sep :: joinSep sep us := by
        intro u us hus
        cases us with
        | nil => exact absurd rfl hus
        | cons x xs => rfl
      rw [h3 w ((w2 :: ws2') ++ ws2) (by simp), this,
        h3 w (w2 :: ws2') (by simp)]
      simp

theorem CleanChunk.join {c1 c2 : List Char} (h1 : CleanChunk c1) (h2 : CleanChunk c2) :
    CleanChunk (c1 ++ ' ' :: c2) := by
  obtain ⟨ws1, hne1, hcl1, rfl⟩ := h1
  obtain ⟨ws2, hne2, hcl2, rfl⟩ := h2
  refine ⟨ws1 ++ ws2, by simp [hne1], ?_, ?_⟩
  · intro w hw
    rcases List.mem_append.mp hw with h | h
    · exact hcl1 w h
    · exact hcl2 w h
  · rw [joinSep_append hne1 hne2]

theorem CleanChunk.push {c w : List Char} (hc : CleanChunk c) (hw : CleanWord w) :
    CleanChunk (c ++ ' ' :: w) := hc.join hw.chunk

theorem chunkEveryAux_clean {n : Nat} (hn : 1 ≤ n) :
    ∀ fuel (l : List Char), (∀ c ∈ l, pyIsSpace c = false) →
      ∀ p ∈ chunkEveryAux n fuel l, CleanWord p := by
  intro fuel
  induction fuel with
  | zero => intro l _ p hp; simp [chunkEveryAux] at hp
  | succ fuel ih =>
    intro l hl p hp
    cases l with
    | nil => simp [chunkEveryAux] at hp
    | cons a l =>
      rw [show chunkEveryAux n (fuel + 1) (a :: l) =
        (a :: l).take n :: chunkEveryAux n fuel ((a :: l).drop n) from rfl,
        List.mem_cons] at hp
      rcases hp with hp | hp
      · subst hp
        constructor
        · cases n with
          | zero => exact absurd hn (by omega)
          | succ m => simp [List.take]
        · intro c hc
          exact hl c (List.take_subset n (a :: l) hc)
      · exact ih ((a :: l).drop n)
          (fun c hc => hl c (List.drop_subset n (a :: l) hc)) p hp

theorem chunkEvery_clean {n : Nat} (hn : 1 ≤ n) {w : List Char}
    (hw : ∀ c ∈ w, pyIsSpace c = false) : ∀ p ∈ chunkEvery n w, CleanWord p :=
  chunkEveryAux_clean hn w.length w hw

theorem split_fold_clean {maxLen : Nat} (hm : 1 ≤ maxLen) :
    ∀ (ws chunks : List (List Char)) (cur : List Char),
      (∀ w ∈ ws, CleanWord w) →
      (∀ c ∈ chunks, CleanChunk c) → (cur = [] ∨ CleanChunk cur) →
      (∀ c ∈ (split_fold maxLen ws (chunks, cur)).1, CleanChunk c) ∧
      ((split_fold maxLen ws (chunks, cur)).2 = [] ∨
        CleanChunk (split_fold maxLen ws (chunks, cur)).2) := by
  intro ws
  induction ws with
  | nil => intro chunks cur _ hch hcur; exact ⟨hch, hcur⟩
  | cons w ws ih =>
    intro chunks cur hws hch hcur
    have hw : CleanWord w := hws w (List.mem_cons_self w ws)
    have hws' : ∀ v ∈ ws, CleanWord v := fun v hv => hws v (List.mem_cons_of_mem w hv)
    rw [show split_fold maxLen (w :: ws) (chunks, cur) =
      (if cur.isEmpty then
        if w.length ≤ maxLen then split_fold maxLen ws (chunks, w)
        else split_fold maxLen ws (chunks ++ chunkEvery maxLen w, [])
      else
        if (cur ++ ' ' :: w).length ≤ maxLen then
          split_fold maxLen ws (chunks, cur ++ ' ' :: w)
        else split_fold maxLen ws (chunks ++ [cur], w)) from rfl]
    by_cases hcure : cur.isEmpty
    · rw [if_pos hcure]
      by_cases hlen : w.length ≤ maxLen
      · rw [if_pos hlen]
        exact ih chunks w hws' hch (Or.inr hw.chunk)
      · rw [if_neg hlen]
        refine ih _ [] hws' ?_ (Or.inl rfl)
        intro c hc
        rcases List.mem_append.mp hc with h | h
        · exact hch c h
        · exact (chunkEvery_clean hm hw.2 c h).chunk
    · rw [if_neg hcure]
      have hcurc : CleanChunk cur := by
        rcases hcur with h | h
        · subst h; simp at hcure
        · exact h
      by_cases hlen : (cur ++ ' ' :: w).length ≤ maxLen
      · rw [if_pos hlen]
        exact ih chunks _ hws' hch (Or.inr (hcurc.push hw))
      · rw [if_neg hlen]
        refine ih _ w hws' ?_ (Or.inr hw.chunk)
        intro c hc
        rcases List.mem_append.mp hc with h | h
        · exact hch c h
        · rw [List.mem_singleton] at h; subst h; exact hcurc

theorem merge_tail_clean {maxLen minLen : Nat} :
    ∀ (chunks : List (List Char)), (∀ c ∈ chunks, CleanChunk c) →
      ∀ c ∈ merge_tail maxLen minLen chunks, CleanChunk c := by
  intro chunks
  induction chunks with
  | nil => intro _ d hd; simp [merge_tail] at hd
  | cons a rest ih =>
    intro hcl d hd
    cases rest with
    | nil =>
      rw [show merge_tail maxLen minLen [a] = [a] from rfl] at hd
      rw [List.mem_singleton] at hd; rw [hd]
      exact hcl a (List.mem_cons_self _ _)
    | cons b rest2 =>
      cases rest2 with
      | nil =>
        rw [show merge_tail maxLen minLen [a, b] =
          (if b.length < minLen ∧ (a ++ ' ' :: b).length ≤ maxLen
            then [a ++ ' ' :: b] else [a, b]) from rfl] at hd
        have h1 : CleanChunk a := hcl a (by simp)
        have h2 : CleanChunk b := hcl b (by simp)
        split at hd
        · rw [List.mem_singleton] at hd; rw [hd]; exact h1.join h2
        · rw [List.mem_cons, List.mem_singleton] at hd
          rcases hd with hd | hd <;> rw [hd]
          · exact h1
          · exact h2
      | cons e rest3 =>
        rw [show merge_tail maxLen minLen (a :: b :: e :: rest3) =
          a :: merge_tail maxLen minLen (b :: e :: rest3) from rfl,
          List.mem_cons] at hd
        rcases hd with hd | hd
        · rw [hd]; exact hcl a (by simp)
        · exact ih (fun x hx => hcl x (List.mem_cons_of_mem a hx)) d hd

/-- Every chunk returned by `_split_long_segment` is a single-space join of
clean words: non-empty, and fixed by normalization. -/
theorem split_long_segment_clean {maxLen minLen : Nat} (hm : 1 ≤ maxLen)
    (seg0 : List Char) : ∀ c ∈ split_long_segment maxLen minLen seg0, CleanChunk c := by
  intro c hc
  rw [show split_long_segment maxLen minLen seg0 =
    (if (normalize_chars seg0).isEmpty then []
     else if (normalize_chars seg0).length ≤ maxLen then [normalize_chars seg0]
     else
      let st := split_fold maxLen (pyWords (normalize_chars seg0)) ([], [])
      let chunks := if st.2.isEmpty then st.1 else st.1 ++ [st.2]
      let merged := merge_tail maxLen minLen chunks
      (merged.map normalize_chars).filter (fun c => !c.isEmpty)) from rfl] at hc
  by_cases h0 : (normalize_chars seg0).isEmpty
  · rw [if_pos h0] at hc; simp at hc
  · rw [if_neg h0] at hc
    have hwne : pyWords seg0 ≠ [] := by
      intro hnil
      rw [show normalize_chars seg0 = joinSep ' ' (pyWords seg0) from rfl, hnil] at h0
      exact h0 rfl
    by_cases h1 : (normalize_chars seg0).length ≤ maxLen
    · rw [if_pos h1, List.mem_singleton] at hc; subst hc
      exact ⟨pyWords seg0, hwne, fun w hw => pyWords_clean w hw, rfl⟩
    · rw [if_neg h1] at hc
      simp only [List.mem_filter, List.mem_map] at hc
      obtain ⟨⟨c', hc', rfl⟩, -⟩ := hc
      have hwords : ∀ w ∈ pyWords (normalize_chars seg0), CleanWord w :=
        fun w hw => pyWords_clean w hw
      have hfold := split_fold_clean hm (pyWords (normalize_chars seg0)) [] []
        hwords (by simp) (Or.inl rfl)
      set st := split_fold maxLen (pyWords (normalize_chars seg0)) ([], []) with hst
      have hall : ∀ d ∈ (if st.2.isEmpty then st.1 else st.1 ++ [st.2]), CleanChunk d := by
        intro d hd
        split at hd
        · exact hfold.1 d hd
        · rcases List.mem_append.mp hd with h | h
          · exact hfold.1 d h
          · rw [List.mem_singleton] at h; subst h
            rcases hfold.2 with h | h
            · rename_i hne; simp [h] at hne
            · exact h
      have hmrg := merge_tail_clean _ hall c' hc'
      rw [hmrg.normalize_fix]
      exact hmrg

/-! ### Ghost flags: which sub-chunk positions open a base segment -/

/-- Ghost data derived from `segment_text`'s loop: one flag per sub-chunk,
true exactly for the first sub-chunk of a base segment in pipe/newline mode
(the positions whose preceding boundary the loop classifies `hard`). -/
def sub_flags (delim : DelimiterMode) : List (List Char) → List Bool
  | [] => []
  | _ :: t => (decide (delim = .pipe ∨ delim = .newline)) :: t.map (fun _ => false)

def boundary_of_flag (f : Bool) : BoundaryType := if f then .hard else .soft

def pause_of_flag (bp wp : Int) (f : Bool) : Int := if f then bp else wp

/-- All first-sub-chunk flags of a delimiter-split text. -/
def flags_of (delim : DelimiterMode) (maxLen minLen : Nat)
    (base : List (List Char)) : List Bool :=
  (base.map (fun b => sub_flags delim (split_long_segment maxLen minLen b))).join

theorem boundary_for_zero (delim : DelimiterMode) :
    boundary_for delim 0 =
      boundary_of_flag (decide (delim = .pipe ∨ delim = .newline)) := by
  by_cases h : delim = .pipe ∨ delim = .newline <;>
    simp [boundary_for, boundary_of_flag, h]

theorem push_subs_pos (delim : DelimiterMode) (bp wp : Int) :
    ∀ (subs : List (List Char)) (k : Nat) (segs : List (List Char))
      (ps : List Int) (bs : List BoundaryType), segs ≠ [] →
      push_subs delim bp wp (k + 1) subs (segs, ps, bs) =
      (segs ++ subs, ps ++ subs.map (fun _ => wp),
        bs ++ subs.map (fun _ => BoundaryType.soft)) := by
  intro subs
  induction subs with
  | nil => intro k segs ps bs _; simp [push_subs]
  | cons s rest ih =>
    intro k segs ps bs hsegs
    have hne : segs.isEmpty = false := by
      cases segs with
      | nil => exact absurd rfl hsegs
      | cons _ _ => rfl
    rw [show push_subs delim bp wp (k + 1) (s :: rest) (segs, ps, bs) =
      (if segs.isEmpty then
        push_subs delim bp wp (k + 2) rest (segs ++ [s], ps, bs)
      else
        push_subs delim bp wp (k + 2) rest
          (segs ++ [s],
           ps ++ [if boundary_for delim (k + 1) = .hard then bp else wp],
           bs ++ [boundary_for delim (k + 1)])) from rfl,
      hne]
    simp only [Bool.false_eq_true, if_false]
    have hbf : boundary_for delim (k + 1) = .soft := by simp [boundary_for]
    rw [hbf]
    rw [ih (k + 1) (segs ++ [s]) _ _ (by simp)]
    simp

theorem push_subs_zero (delim : DelimiterMode) (bp wp : Int)
    (subs segs : List (List Char)) (ps : List Int) (bs : List BoundaryType)
    (hsegs : segs ≠ []) :
    push_subs delim bp wp 0 subs (segs, ps, bs) =
    (segs ++ subs, ps ++ (sub_flags delim subs).map (pause_of_flag bp wp),
      bs ++ (sub_flags delim subs).map boundary_of_flag) := by
  cases subs with
  | nil => simp [push_subs, sub_flags]
  | cons s rest =>
    have hne : segs.isEmpty = false := by
      cases segs with
      | nil => exact absurd rfl hsegs
      | cons _ _ => rfl
    rw [show push_subs delim bp wp 0 (s :: rest) (segs, ps, bs) =
      (if segs.isEmpty then
        push_subs delim bp wp 1 rest (segs ++ [s], ps, bs)
      else
        push_subs delim bp wp 1 rest
          (segs ++ [s],
           ps ++ [if boundary_for delim 0 = .hard then bp else wp],
           bs ++ [boundary_for delim 0])) from rfl,
      hne]
    simp only [Bool.false_eq_true, if_false]
    rw [boundary_for_zero delim]
    rw [push_subs_pos delim bp wp rest 0 (segs ++ [s]) _ _ (by simp)]
    have hpause : (if boundary_of_flag (decide (delim = .pipe ∨ delim = .newline)) =
        .hard then bp else wp) =
        pause_of_flag bp wp (decide (delim = .pipe ∨ delim = .newline)) := by
      cases hd : decide (delim = .pipe ∨ delim = .newline) <;>
        simp [boundary_of_flag, pause_of_flag]
    rw [hpause]
    simp [sub_flags, List.map_map, Function.comp, pause_of_flag, boundary_of_flag]

theorem push_subs_empty (delim : DelimiterMode) (bp wp : Int)
    (subs : List (List Char)) (ps : List Int) (bs : List BoundaryType) :
    push_subs delim bp wp 0 subs ([], ps, bs) =
    (subs, ps ++ ((sub_flags delim subs).tail).map (pause_of_flag bp wp),
      bs ++ ((sub_flags delim subs).tail).map boundary_of_flag) := by
  cases subs with
  | nil => simp [push_subs, sub_flags]
  | cons s rest =>
    rw [show push_subs delim bp wp 0 (s :: rest) ([], ps, bs) =
      push_subs delim bp wp 1 rest ([] ++ [s], ps, bs) from rfl]
    rw [show ([] : List (List Char)) ++ [s] = [s] from rfl]
    rw [push_subs_pos delim bp wp rest 0 [s] _ _ (by simp)]
    simp [sub_flags, List.map_map, Function.comp, pause_of_flag, boundary_of_flag]

theorem run_base_nonempty (delim : DelimiterMode) (bp wp : Int) (maxLen minLen : Nat) :
    ∀ (base segs : List (List Char)) (ps : List Int) (bs : List BoundaryType),
      segs ≠ [] →
      run_base delim bp wp maxLen minLen base (segs, ps, bs) =
      (segs ++ (base.map (split_long_segment maxLen minLen)).join,
        ps ++ (flags_of delim maxLen minLen base).map (pause_of_flag bp wp),
        bs ++ (flags_of delim maxLen minLen base).map boundary_of_flag) := by
  intro base
  induction base with
  | nil => intro segs ps bs _; simp [run_base, flags_of]
  | cons b rest ih =>
    intro segs ps bs hsegs
    rw [show run_base delim bp wp maxLen minLen (b :: rest) (segs, ps, bs) =
      run_base delim bp wp maxLen minLen rest
        (push_subs delim bp wp 0 (split_long_segment maxLen minLen b)
          (segs, ps, bs)) from rfl]
    rw [push_subs_zero delim bp wp _ segs ps bs hsegs]
    rw [ih (segs ++ split_long_segment maxLen minLen b) _ _ (by simp [hsegs])]
    simp [flags_of, List.append_assoc]

theorem run_base_empty (delim : DelimiterMode) (bp wp : Int) (maxLen minLen : Nat) :
    ∀ (base : List (List Char)) (ps : List Int) (bs : List BoundaryType),
      run_base delim bp wp maxLen minLen base ([], ps, bs) =
      ((base.map (split_long_segment maxLen minLen)).join,
        ps ++ ((flags_of delim maxLen minLen base).tail).map (pause_of_flag bp wp),
        bs ++ ((flags_of delim maxLen minLen base).tail).map boundary_of_flag) := by
  intro base
  induction base with
  | nil => intro ps bs; simp [run_base, flags_of]
  | cons b rest ih =>
    intro ps bs
    rw [show run_base delim bp wp maxLen minLen (b :: rest) (([], ps, bs)) =
      run_base delim bp wp maxLen minLen rest
        (push_subs delim bp wp 0 (split_long_segment maxLen minLen b)
          ([], ps, bs)) from rfl]
    cases hsub : split_long_segment maxLen minLen b with
    | nil =>
      rw [show push_subs delim bp wp 0 [] (([] : List (List Char)), ps, bs) =
        ([], ps, bs) from rfl]
      rw [ih ps bs]
      simp [flags_of, hsub, sub_flags]
    | cons s srest =>
      rw [push_subs_empty delim bp wp _ ps bs]
      rw [run_base_nonempty delim bp wp maxLen minLen rest (s :: srest) _ _ (by simp)]
      simp only [flags_of, List.map_cons, List.join_cons, hsub]
      simp [sub_flags, List.append_assoc]

/-! ### Branch evaluations of `segment_text` -/

/-- The base-segment list in pipe mode. -/
def pipe_base (cs : List Char) : List (List Char) :=
  ((splitChar '|' cs).map normalize_chars).filter (fun p => !p.isEmpty)

/-- The base-segment list in newline mode. -/
def newline_base (cs : List Char) : List (List Char) :=
  ((splitNL cs).map normalize_chars).filter (fun p => !p.isEmpty)

theorem segment_text_pipe_eval (cs : List Char) (hcs : '|' ∈ cs)
    (bpo wpo : Option Int) :
    segment_text cs bpo wpo =
      ⟨((pipe_base cs).map (split_long_segment 220 160)).join, .pipe,
       ((flags_of .pipe 220 160 (pipe_base cs)).tail).map
         (pause_of_flag (clamp_pause bpo 70) (clamp_pause wpo 35)),
       ((flags_of .pipe 220 160 (pipe_base cs)).tail).map boundary_of_flag⟩ := by
  simp only [segment_text, hcs, if_true, pipe_base]
  rw [run_base_empty]
  simp

theorem segment_text_newline_eval (cs : List Char) (hcs : ¬ '|' ∈ cs)
    (hnl : '\n' ∈ cs ∨ '\r' ∈ cs) (bpo wpo : Option Int) :
    segment_text cs bpo wpo =
      ⟨((newline_base cs).map (split_long_segment 220 160)).join, .newline,
       ((flags_of .newline 220 160 (newline_base cs)).tail).map
         (pause_of_flag (clamp_pause bpo 70) (clamp_pause wpo 35)),
       ((flags_of .newline 220 160 (newline_base cs)).tail).map boundary_of_flag⟩ := by
  simp only [segment_text, hcs, hnl, if_false, if_true, newline_base]
  rw [run_base_empty]
  simp

theorem segment_text_punct_eval (cs : List Char) (hcs : ¬ '|' ∈ cs)
    (hnl : ¬ ('\n' ∈ cs ∨ '\r' ∈ cs))
    (hp : PUNCT_BREAKS.any (fun p => decide (p ∈ cs)) = true) (bpo wpo : Option Int) :
    segment_text cs bpo wpo =
      ⟨((split_punct cs).map (split_long_segment 220 160)).join, .punct,
       ((flags_of .punct 220 160 (split_punct cs)).tail).map
         (pause_of_flag (clamp_pause bpo 35) (clamp_pause wpo 35)),
       ((flags_of .punct 220 160 (split_punct cs)).tail).map boundary_of_flag⟩ := by
  simp only [segment_text, hcs, hnl, hp, if_false, if_true]
  rw [run_base_empty]
  simp

theorem segment_text_none_eval (cs : List Char) (hcs : ¬ '|' ∈ cs)
    (hnl : ¬ ('\n' ∈ cs ∨ '\r' ∈ cs))
    (hp : PUNCT_BREAKS.any (fun p => decide (p ∈ cs)) = false) (bpo wpo : Option Int) :
    segment_text cs bpo wpo =
      ⟨((split_punct cs).map (split_long_segment 220 160)).join, .none,
       ((flags_of .none 220 160 (split_punct cs)).tail).map
         (pause_of_flag (clamp_pause bpo 35) (clamp_pause wpo 35)),
       ((flags_of .none 220 160 (split_punct cs)).tail).map boundary_of_flag⟩ := by
  simp only [segment_text, hcs, hnl, hp, if_false, if_true]
  rw [run_base_empty]
  simp

/-! ### Lengths, pause bounds, and blank input -/

theorem sub_flags_length (delim : DelimiterMode) (l : List (List Char)) :
    (sub_flags delim l).length = l.length := by
  cases l <;> simp [sub_flags]

theorem flags_of_length (delim : DelimiterMode) (maxLen minLen : Nat)
    (base : List (List Char)) :
    (flags_of delim maxLen minLen base).length =
      ((base.map (split_long_segment maxLen minLen)).join).length := by
  simp only [flags_of, List.length_join, List.map_map]
  congr 1
  apply List.map_congr_left
  intro b _
  simp [sub_flags_length]

theorem clamp_pause_bounds (v : Option Int) (d : Int) (hd : 0 ≤ d ∧ d ≤ 1000) :
    0 ≤ clamp_pause v d ∧ clamp_pause v d ≤ 1000 := by
  cases v with
  | none => exact hd
  | some x => simp only [clamp_pause]; omega

theorem pause_of_flag_mem (bp wp : Int) (f : Bool) :
    pause_of_flag bp wp f = bp ∨ pause_of_flag bp wp f = wp := by
  cases f <;> simp [pause_of_flag]

theorem splitSp_space_parts :
    ∀ (l : List Char), (∀ c ∈ l, pyIsSpace c = true) →
      ∀ p ∈ splitSp l, p = [] := by
  intro l
  induction l with
  | nil => intro _ p hp; simp [splitSp] at hp; exact hp
  | cons c cs ih =>
    intro h p hp
    have hc : pyIsSpace c = true := h c (List.mem_cons_self c cs)
    rw [show splitSp (c :: cs) =
      (if pyIsSpace c = true then [] :: splitSp cs
       else (splitSp cs).modifyHead (fun w => c :: w)) from rfl, if_pos hc,
      List.mem_cons] at hp
    rcases hp with hp | hp
    · exact hp
    · exact ih (fun d hd => h d (List.mem_cons_of_mem c hd)) p hp

theorem normalize_chars_space {l : List Char} (h : ∀ c ∈ l, pyIsSpace c = true) :
    normalize_chars l = [] := by
  have hw : pyWords l = [] := by
    rw [pyWords, List.filter_eq_nil]
    intro p hp
    rw [splitSp_space_parts l h p hp]
    simp
  rw [normalize_chars, hw]
  rfl

theorem splitNLAux_subset :
    ∀ (fuel : Nat) (l : List Char), ∀ p ∈ splitNLAux fuel l, ∀ c ∈ p, c ∈ l := by
  intro fuel
  induction fuel with
  | zero =>
    intro l p hp c hc
    simp only [splitNLAux, List.mem_singleton] at hp
    exact hp ▸ hc
  | succ fuel ih =>
    intro l p hp c hc
    cases l with
    | nil =>
      simp only [splitNLAux, List.mem_singleton] at hp
      rw [hp] at hc; simp at hc
    | cons a rest =>
      rw [show splitNLAux (fuel + 1) (a :: rest) =
        (if a = '\n' then [] :: splitNLAux fuel (rest.dropWhile (fun d => d = '\n'))
         else if a = '\r' ∧ rest.head? = some '\n' then
           [] :: splitNLAux fuel (rest.tail.dropWhile (fun d => d = '\n'))
         else (splitNLAux fuel rest).modifyHead (fun w => a :: w)) from rfl] at hp
      by_cases h1 : a = '\n'
      · rw [if_pos h1, List.mem_cons] at hp
        rcases hp with hp | hp
        · rw [hp] at hc; simp at hc
        · have := ih _ p hp c hc
          exact List.mem_cons_of_mem a
            ((List.dropWhile_sublist (fun d => d = '\n')).subset this)
      · rw [if_neg h1] at hp
        by_cases h2 : a = '\r' ∧ rest.head? = some '\n'
        · rw [if_pos h2, List.mem_cons] at hp
          rcases hp with hp | hp
          · rw [hp] at hc; simp at hc
          · have h3 := ih _ p hp c hc
            have h4 : c ∈ rest.tail :=
              (List.dropWhile_sublist (fun d => d = '\n')).subset h3
            exact List.mem_cons_of_mem a ((List.tail_sublist rest).subset h4)
        · rw [if_neg h2] at hp
          cases hsp : splitNLAux fuel rest with
          | nil => rw [hsp] at hp; simp [List.modifyHead] at hp
          | cons q qs =>
            rw [hsp, List.modifyHead, List.mem_cons] at hp
            rcases hp with hp | hp
            · rw [hp, List.mem_cons] at hc
              rcases hc with hc | hc
              · exact hc ▸ List.mem_cons_self a rest
              · exact List.mem_cons_of_mem a
                  (ih rest q (hsp ▸ List.mem_cons_self q qs) c hc)
            · exact List.mem_cons_of_mem a
                (ih rest p (hsp ▸ List.mem_cons_of_mem q hp) c hc)

theorem space_not_punct {c : Char} (h : pyIsSpace c = true) :
    ¬ c ∈ PUNCT_BREAKS := by
  intro hmem
  simp only [pyIsSpace, Bool.or_eq_true, decide_eq_true_eq] at h
  simp only [PUNCT_BREAKS, List.mem_cons, List.not_mem_nil, or_false] at hmem
  rcases hmem with rfl | rfl | rfl | rfl <;> simp at h

theorem split_punct_aux_space :
    ∀ (l buf : List Char), (∀ c ∈ l, pyIsSpace c = true) →
      (∀ c ∈ buf, pyIsSpace c = true) → split_punct_aux l buf = [] := by
  intro l
  induction l with
  | nil =>
    intro buf _ hbuf
    have : normalize_chars buf.reverse = [] :=
      normalize_chars_space (fun c hc => hbuf c (List.mem_reverse.mp hc))
    simp [split_punct_aux, this]
  | cons a rest ih =>
    intro buf h hbuf
    have ha : pyIsSpace a = true := h a (List.mem_cons_self a rest)
    have hnp : ¬ a ∈ PUNCT_BREAKS := space_not_punct ha
    rw [show split_punct_aux (a :: rest) buf =
      (if a ∈ PUNCT_BREAKS then
        (let seg := normalize_chars ((a :: buf).reverse)
         if seg.isEmpty then split_punct_aux rest []
         else seg :: split_punct_aux rest [])
       else split_punct_aux rest (a :: buf)) from rfl, if_neg hnp]
    refine ih (a :: buf) (fun c hc => h c (List.mem_cons_of_mem a hc)) ?_
    intro c hc
    rw [List.mem_cons] at hc
    rcases hc with hc | hc
    · exact hc ▸ ha
    · exact hbuf c hc

/-! ### C4: overlong chunks -/

/-- C4 (code_bug): the claim (and the spec) require every returned sub-chunk
to be at most 220 characters, with an overlong token hard-sliced; but
`_split_long_segment` only slices an overlong token when the accumulator is
empty.  On `"aa "` followed by a 230-character token (normalized length 233),
the token survives as an unsliced 230-character chunk. -/
theorem split_long_segment_unsliced_token :
    220 < (normalize_chars ('a' :: 'a' :: ' ' :: List.replicate 230 'x')).length ∧
    (split_long_segment 220 160 ('a' :: 'a' :: ' ' :: List.replicate 230 'x')).map
      List.length = [2, 230] ∧
    ¬ (∀ c ∈ split_long_segment 220 160 ('a' :: 'a' :: ' ' :: List.replicate 230 'x'),
        c.length ≤ 220) :=
  ⟨by decide, by decide, by decide⟩

/-! ### C8: pipe-delimited segmentation -/

/-- C8 (confirmed): `segment_text "a | b | c"` yields exactly the segments
a, b, c, delimiter mode pipe, and both boundaries hard at the default 70 ms
hard pause; generally, any text containing a pipe is segmented in pipe mode
and its boundary list classifies a boundary hard exactly when the following
sub-chunk is the first sub-chunk of a base segment (its ghost flag is true),
so every first-sub-chunk boundary is hard. -/
theorem segment_text_pipe_mode :
    segment_text "a | b | c".data Option.none Option.none =
      ⟨["a".data, "b".data, "c".data], .pipe, [70, 70], [.hard, .hard]⟩ ∧
    ∀ cs : List Char, '|' ∈ cs →
      (segment_text cs Option.none Option.none).delimiter = .pipe ∧
      (segment_text cs Option.none Option.none).boundary_types =
        ((flags_of .pipe 220 160 (pipe_base cs)).tail).map boundary_of_flag := by
  refine ⟨by decide, ?_⟩
  intro cs hcs
  rw [segment_text_pipe_eval cs hcs]
  exact ⟨rfl, rfl⟩

/-- Closed witness for `segment_text_pipe_mode` at the concrete text `"x|y"`. -/
theorem segment_text_pipe_mode_witness :
    (segment_text "x|y".data Option.none Option.none).delimiter = .pipe ∧
    (segment_text "x|y".data Option.none Option.none).boundary_types =
      ((flags_of .pipe 220 160 (pipe_base "x|y".data)).tail).map boundary_of_flag :=
  segment_text_pipe_mode.2 "x|y".data (by decide)

/-! ### C9: structural invariants of every segmentation result -/

theorem seg_tuple_invariants (delim : DelimiterMode) (base : List (List Char))
    (bp wp : Int) (hbp : 0 ≤ bp ∧ bp ≤ 1000) (hwp : 0 ≤ wp ∧ wp ≤ 1000) :
    (((flags_of delim 220 160 base).tail).map (pause_of_flag bp wp)).length =
      ((base.map (split_long_segment 220 160)).join).length - 1 ∧
    (((flags_of delim 220 160 base).tail).map boundary_of_flag).length =
      ((base.map (split_long_segment 220 160)).join).length - 1 ∧
    (∀ s ∈ (base.map (split_long_segment 220 160)).join,
      s ≠ [] ∧ normalize_chars s = s) ∧
    ∀ p ∈ ((flags_of delim 220 160 base).tail).map (pause_of_flag bp wp),
      0 ≤ p ∧ p ≤ 1000 := by
  refine ⟨?_, ?_, ?_, ?_⟩
  · rw [List.length_map, List.length_tail, flags_of_length]
  · rw [List.length_map, List.length_tail, flags_of_length]
  · intro s hs
    rw [List.mem_join] at hs
    obtain ⟨l, hl, hsl⟩ := hs
    rw [List.mem_map] at hl
    obtain ⟨b, hb, rfl⟩ := hl
    have hclean := split_long_segment_clean (by norm_num) b s hsl
    exact ⟨hclean.ne_nil, hclean.normalize_fix⟩
  · intro p hp
    rw [List.mem_map] at hp
    obtain ⟨f, hf, rfl⟩ := hp
    rcases pause_of_flag_mem bp wp f with h | h <;> rw [h]
    exacts [hbp, hwp]

/-- C9 (confirmed): every `segment_text` result has exactly
`max(0, len(segments) - 1)` pauses and boundary types, every segment is
non-empty with its whitespace already collapsed (it is a fixed point of the
normalizer), and every pause lies in [0, 1000] ms. -/
theorem segment_text_invariants (cs : List Char) (bpo wpo : Option Int) :
    (segment_text cs bpo wpo).pauses_ms.length =
      (segment_text cs bpo wpo).segments.length - 1 ∧
    (segment_text cs bpo wpo).boundary_types.length =
      (segment_text cs bpo wpo).segments.length - 1 ∧
    (∀ s ∈ (segment_text cs bpo wpo).segments, s ≠ [] ∧ normalize_chars s = s) ∧
    ∀ p ∈ (segment_text cs bpo wpo).pauses_ms, 0 ≤ p ∧ p ≤ 1000 := by
  by_cases hcs : '|' ∈ cs
  · rw [segment_text_pipe_eval cs hcs]
    exact seg_tuple_invariants .pipe (pipe_base cs) _ _
      (clamp_pause_bounds bpo 70 (by omega)) (clamp_pause_bounds wpo 35 (by omega))
  · by_cases hnl : '\n' ∈ cs ∨ '\r' ∈ cs
    · rw [segment_text_newline_eval cs hcs hnl]
      exact seg_tuple_invariants .newline (newline_base cs) _ _
        (clamp_pause_bounds bpo 70 (by omega)) (clamp_pause_bounds wpo 35 (by omega))
    · by_cases hp : PUNCT_BREAKS.any (fun p => decide (p ∈ cs)) = true
      · rw [segment_text_punct_eval cs hcs hnl hp]
        exact seg_tuple_invariants .punct (split_punct cs) _ _
          (clamp_pause_bounds bpo 35 (by omega)) (clamp_pause_bounds wpo 35 (by omega))
      · rw [segment_text_none_eval cs hcs hnl (by simpa using hp)]
        exact seg_tuple_invariants .none (split_punct cs) _ _
          (clamp_pause_bounds bpo 35 (by omega)) (clamp_pause_bounds wpo 35 (by omega))

/-! ### C10: blank input -/

/-- C10 (counterexample): the claim says blank input yields delimiter mode
`none`; but the whitespace-only input `"\n"` yields zero segments with
delimiter mode `newline`, because a newline is matched by the newline branch
before the punctuation fallback. -/
theorem segment_text_blank_counterexample :
    (∀ c ∈ ['\n'], pyIsSpace c = true) ∧
    (segment_text ['\n'] Option.none Option.none).segments = [] ∧
    (segment_text ['\n'] Option.none Option.none).delimiter = .newline ∧
    DelimiterMode.newline ≠ .none :=
  ⟨by decide, by decide, by decide, by decide⟩

/-- C10 (amended): for every input that is empty or consists only of
whitespace, `segment_text` returns zero segments with empty pause and
boundary lists (never one segment); the delimiter mode is `newline` when the
whitespace contains a newline or carriage return, and `none` otherwise. -/
theorem segment_text_blank (cs : List Char) (h : ∀ c ∈ cs, pyIsSpace c = true) :
    segment_text cs Option.none Option.none =
      ⟨[], if '\n' ∈ cs ∨ '\r' ∈ cs then .newline else .none, [], []⟩ := by
  have hpipe : ¬ '|' ∈ cs := fun hmem => absurd (h '|' hmem) (by decide)
  by_cases hnl : '\n' ∈ cs ∨ '\r' ∈ cs
  · rw [segment_text_newline_eval cs hpipe hnl, if_pos hnl]
    have hbase : newline_base cs = [] := by
      rw [newline_base, List.filter_eq_nil]
      intro p hp
      rw [List.mem_map] at hp
      obtain ⟨q, hq, rfl⟩ := hp
      have hnorm : normalize_chars q = [] := normalize_chars_space
        (fun c hc => h c (splitNLAux_subset cs.length cs q hq c hc))
      simp [hnorm]
    rw [hbase]
    rfl
  · have hpun : PUNCT_BREAKS.any (fun p => decide (p ∈ cs)) = false := by
      rw [List.any_eq_false]
      intro x hx
      simp only [decide_eq_true_eq]
      intro hxc
      exact space_not_punct (h x hxc) hx
    rw [segment_text_none_eval cs hpipe hnl hpun, if_neg hnl]
    have hbase : split_punct cs = [] := split_punct_aux_space cs [] h (by simp)
    rw [hbase]
    rfl

/-- Closed witness for `segment_text_blank` on a space-and-tab input. -/
theorem segment_text_blank_witness :
    segment_text [' ', '\t'] Option.none Option.none =
      ⟨[], if '\n' ∈ [' ', '\t'] ∨ '\r' ∈ [' ', '\t'] then .newline else .none,
        [], []⟩ :=
  segment_text_blank [' ', '\t'] (by decide)

/-! ## Stitching (`audio_edit.py`), at the PCM level

`wav_to_pcm16_mono` (stdlib `wave` decode plus resampling) is the container
codec; the stitching loop below operates on the decoded mono 16-bit sample
lists exactly as `stitch_wavs` does after its decode loop. -/

/-- `int(sample_rate * (ms / 1000.0))`: the exact value is `r·ms/1000`;
`int()` truncates toward zero, i.e. `Int.tdiv` of the integer products. -/
def frames_of_ms (sample_rate ms : Int) : Int := Int.tdiv (sample_rate * ms) 1000

/-- `_apply_fade_out` as a pure function: linearly scale the last
`min(frames, len)` samples by `(frames - idx) / frames` (exact value
`x·(f-idx)/f`, truncated toward zero); no-op when `frames ≤ 0`. -/
def apply_fade_out (samples : List Int) (frames : Int) : List Int :=
  if frames ≤ 0 then samples
  else
    let f := min frames.toNat samples.length
    samples.take (samples.length - f) ++
      (samples.drop (samples.length - f)).mapIdx
        (fun idx x => Int.tdiv (x * ((f : Int) - idx)) f)

/-- `_apply_fade_in`: scale the first `min(frames, len)` samples by
`(idx + 1) / frames`; no-op when `frames ≤ 0`. -/
def apply_fade_in (samples : List Int) (frames : Int) : List Int :=
  if frames ≤ 0 then samples
  else
    let f := min frames.toNat samples.length
    (samples.take f).mapIdx (fun idx x => Int.tdiv (x * ((idx : Int) + 1)) f) ++
      samples.drop f

/-- One junction of `stitch_wavs`'s loop: non-zero pause frames → fade out,
insert that many zero samples, fade the next chunk in; otherwise overlap-sum a
linear crossfade (`int(a·(1-t) + b·t)` with `t = (i+1)/overlap`, exactly
`(a·(ov-i-1) + b·(i+1))/ov` truncated). -/
def stitch_step (sample_rate cf : Int) (stitched next_pcm : List Int)
    (pause : Int) : List Int :=
  let pause_frames := max 0 (frames_of_ms sample_rate pause)
  if 0 < pause_frames then
    apply_fade_out stitched cf ++ List.replicate pause_frames.toNat 0 ++
      apply_fade_in next_pcm cf
  else
    let overlap := min cf.toNat (min stitched.length next_pcm.length)
    if 0 < overlap then
      stitched.take (stitched.length - overlap) ++
        ((stitched.drop (stitched.length - overlap)).zip
            (next_pcm.take overlap)).mapIdx
          (fun i ab =>
            Int.tdiv (ab.1 * ((overlap : Int) - (i + 1)) + ab.2 * (i + 1)) overlap) ++
        next_pcm.drop overlap
    else stitched ++ next_pcm

/-- The junction fold of `stitch_wavs`. -/
def stitch_go (sample_rate cf : Int) :
    List Int → List (List Int × Int) → List Int
  | acc, [] => acc
  | acc, (next, pause) :: rest =>
    stitch_go sample_rate cf (stitch_step sample_rate cf acc next pause) rest

/-- `stitch_wavs` on decoded PCM chunks.  `none` models the `ValueError`s for
an empty chunk list or a mis-sized pause list. -/
def stitch_wavs (pcm_chunks : List (List Int)) (sample_rate : Int)
    (pauses_ms : List Int) (crossfade_ms : Int) : Option (List Int) :=
  match pcm_chunks with
  | [] => Option.none
  | first :: rest =>
    if pauses_ms.length ≠ rest.length then Option.none
    else
      let crossfade_frames := max 0 (frames_of_ms sample_rate crossfade_ms)
      some (stitch_go sample_rate crossfade_frames first (rest.zip pauses_ms))

/-! ### C5: pause junctions -/

/-- C5 (counterexample): the claim promises fade-out / zero-run / fade-in for
every non-zero pause, but with sample rate 100 Hz and pause 1 ms the computed
frame count `int(100·0.001) = 0` sends the code down the crossfade branch: the
chunks are overlap-summed (output `[1000, 2000, 2000]`, one sample shorter),
not faded around an (empty) zero run. -/
theorem stitch_wavs_small_pause :
    stitch_wavs [[1000, 1000], [2000, 2000]] 100 [1] 15 = some [1000, 2000, 2000] ∧
    (1 : Int) ≠ 0 ∧
    some [1000, 2000, 2000] ≠
      some (apply_fade_out [1000, 1000] (max 0 (frames_of_ms 100 15)) ++
        List.replicate (max 0 (frames_of_ms 100 1)).toNat 0 ++
        apply_fade_in [2000, 2000] (max 0 (frames_of_ms 100 15))) :=
  ⟨by decide, by decide, by decide⟩

theorem tdiv_eq_fdiv_of_nonneg {a b : Int} (ha : 0 ≤ a) (hb : 0 ≤ b) :
    Int.tdiv a b = Int.fdiv a b := by
  obtain ⟨m, rfl⟩ := Int.eq_ofNat_of_zero_le ha
  obtain ⟨n, rfl⟩ := Int.eq_ofNat_of_zero_le hb
  change Int.tdiv (Int.ofNat m) (Int.ofNat n) = Int.fdiv (Int.ofNat m) (Int.ofNat n)
  cases m with
  | zero =>
    show Int.ofNat (0 / n) = (0 : Int)
    rw [Nat.zero_div]
    rfl
  | succ k => rfl

/-- C5 (amended): for two PCM chunks stitched with a pause value `p` at rate
`r` whose computed pause frame count `int(r·p/1000)` is positive (≥ 1 frame —
a merely non-zero `p` does not suffice), the output is exactly the first chunk
faded out over the crossfade window, then exactly that many zero samples (a
contiguous zero run of `⌊r·p/1000⌋` samples, e.g. 3087 for 140 ms at
22050 Hz), then the second chunk faded in over the crossfade window. -/
theorem stitch_wavs_pause (c1 c2 : List Int) (r p cfms : Int)
    (hp : 0 < frames_of_ms r p) :
    stitch_wavs [c1, c2] r [p] cfms =
      some (apply_fade_out c1 (max 0 (frames_of_ms r cfms)) ++
        List.replicate (frames_of_ms r p).toNat 0 ++
        apply_fade_in c2 (max 0 (frames_of_ms r cfms))) ∧
    (0 ≤ r * p → frames_of_ms r p = Int.fdiv (r * p) 1000) := by
  constructor
  · rw [show stitch_wavs [c1, c2] r [p] cfms =
      (if ([p] : List Int).length ≠ ([c2] : List (List Int)).length then Option.none
       else some (stitch_go r (max 0 (frames_of_ms r cfms)) c1
        (([c2].zip [p])))) from rfl]
    rw [if_neg (by simp)]
    rw [show ([c2].zip [p] : List (List Int × Int)) = [(c2, p)] from rfl]
    rw [show stitch_go r (max 0 (frames_of_ms r cfms)) c1 [(c2, p)] =
      stitch_go r (max 0 (frames_of_ms r cfms))
        (stitch_step r (max 0 (frames_of_ms r cfms)) c1 c2 p) [] from rfl]
    rw [show ∀ acc, stitch_go r (max 0 (frames_of_ms r cfms)) acc [] = acc
      from fun _ => rfl]
    rw [stitch_step]
    have hmax : max 0 (frames_of_ms r p) = frames_of_ms r p :=
      max_eq_right (le_of_lt hp)
    rw [hmax, if_pos hp]
  · intro hrp
    exact tdiv_eq_fdiv_of_nonneg hrp (by norm_num)

/-- Closed witness for `stitch_wavs_pause`: a 140 ms pause at 22050 Hz. -/
theorem stitch_wavs_pause_witness :
    (stitch_wavs [[1000, 1000], [2000, 2000]] 22050 [140] 15 =
      some (apply_fade_out [1000, 1000] (max 0 (frames_of_ms 22050 15)) ++
        List.replicate (frames_of_ms 22050 140).toNat 0 ++
        apply_fade_in [2000, 2000] (max 0 (frames_of_ms 22050 15)))) ∧
    (0 ≤ (22050 : Int) * 140 → frames_of_ms 22050 140 = Int.fdiv (22050 * 140) 1000) :=
  stitch_wavs_pause [1000, 1000] [2000, 2000] 22050 140 15 (by decide)

/-! ## Radio DSP chain (`radio.py`)

The `random` module's draws are modeled by oracle streams, and the two
transcendental stdlib functions (`math.tanh`, `math.cos`) plus `math.pi` by
parameters, since the source only pipes their outputs onward.  All float
arithmetic is exact (`Frac`).  A Python exception escaping a DSP stage —
`array("h").append` raising `OverflowError` on an out-of-int16 value — is
modeled by `none`. -/

/-- The keys of `RADIO_PROFILES`. -/
def RADIO_PROFILE_IDS : List String :=
  ["clean", "vhf", "cockpit", "tinny", "vatsim", "congested"]

/-- `validate_radio_profile`. -/
def validate_radio_profile (name : String) : Bool :=
  decide (name ∈ RADIO_PROFILE_IDS)

/-- One preset of the `presets` table in `apply_radio_profile` (missing
`drop_*`/`wobble_*` entries are `p.get(..., 0.0) or 0.0`, i.e. zero). -/
structure RadioPreset where
  hp : Frac
  lp : Frac
  hiss : Frac
  bursts_per_s : Frac
  burst_level : Frac
  burst_len_s : Frac
  crush : Nat
  drive : Frac
  tail : Frac
  wet : Frac
  gain : Frac
  drop_prob : Frac
  drop_len_s : Frac
  wobble_hz : Frac
  wobble_depth : Frac

/-- `presets.get(profile, presets["vhf"])`. -/
def presets : String → RadioPreset
  | "cockpit" => ⟨⟨200, 1⟩, ⟨2400, 1⟩, ⟨25, 10000⟩, ⟨2, 1⟩, ⟨12, 1000⟩, ⟨1, 100⟩, 1,
      ⟨112, 100⟩, ⟨1, 10⟩, ⟨65, 100⟩, ⟨115, 100⟩, ⟨0, 1⟩, ⟨0, 1⟩, ⟨0, 1⟩, ⟨0, 1⟩⟩
  | "tinny" => ⟨⟨520, 1⟩, ⟨3200, 1⟩, ⟨35, 10000⟩, ⟨5, 1⟩, ⟨18, 1000⟩, ⟨1, 100⟩, 2,
      ⟨118, 100⟩, ⟨12, 100⟩, ⟨75, 100⟩, ⟨12, 10⟩, ⟨0, 1⟩, ⟨0, 1⟩, ⟨0, 1⟩, ⟨0, 1⟩⟩
  | "vatsim" => ⟨⟨320, 1⟩, ⟨3000, 1⟩, ⟨45, 10000⟩, ⟨4, 1⟩, ⟨22, 1000⟩, ⟨14, 1000⟩, 1,
      ⟨115, 100⟩, ⟨1, 10⟩, ⟨9, 10⟩, ⟨112, 100⟩, ⟨1, 1000⟩, ⟨18, 1000⟩, ⟨5, 10⟩, ⟨1, 10⟩⟩
  | "congested" => ⟨⟨360, 1⟩, ⟨2800, 1⟩, ⟨55, 10000⟩, ⟨7, 1⟩, ⟨3, 100⟩, ⟨14, 1000⟩, 2,
      ⟨125, 100⟩, ⟨8, 100⟩, ⟨95, 100⟩, ⟨118, 100⟩, ⟨25, 10000⟩, ⟨2, 100⟩, ⟨65, 100⟩,
      ⟨12, 100⟩⟩
  | _ => ⟨⟨320, 1⟩, ⟨2800, 1⟩, ⟨4, 1000⟩, ⟨6, 1⟩, ⟨2, 100⟩, ⟨12, 1000⟩, 2,
      ⟨125, 100⟩, ⟨14, 100⟩, ⟨85, 100⟩, ⟨125, 100⟩, ⟨0, 1⟩, ⟨0, 1⟩, ⟨0, 1⟩, ⟨0, 1⟩⟩

/-- Oracle streams for the `random` module: `noise i` is the i-th
`random.uniform(-1, 1)` of `_add_noise`, `burstGate`/`burstNoise` the draws of
`_add_static_bursts`, `dropGate`/`dropLen` those of `_apply_dropouts`
(`dropLen` already in `[1, max_len]`, clamped in the model). -/
structure RadioRng where
  noise : Nat → Frac
  burstGate : Nat → Frac
  burstNoise : Nat → Frac
  dropGate : Nat → Frac
  dropLen : Nat → Nat

/-- The transcendental stdlib pieces: `math.tanh`, `math.cos`, `math.pi`. -/
structure RadioMath where
  tanh : Frac → Frac
  cos : Frac → Frac
  pi : Frac

/-- `int(max(min(y, 32767), -32768))`: float clamp then truncation. -/
def clampQtoInt (y : Frac) : Int :=
  Frac.trunc (if Frac.blt (Frac.ofInt 32767) y then Frac.ofInt 32767
    else if Frac.blt y (Frac.ofInt (-32768)) then Frac.ofInt (-32768) else y)

/-- `array("h").append(v)`: raises `OverflowError` outside int16 range. -/
def appendCheck (v : Int) : Option Int :=
  if v < -32768 ∨ 32767 < v then Option.none else some v

/-- `_one_pole_highpass` body: `y := α·(y + x − x_prev)`, appending `int(y)`
unclamped (overflow = `none`). -/
def one_pole_highpass_go (alpha : Frac) : Frac → Frac → List Int → Option (List Int)
  | _, _, [] => some []
  | y, xp, x :: rest =>
    let y' := alpha.mul ((y.add (Frac.ofInt x)).sub xp)
    match appendCheck y'.trunc with
    | Option.none => Option.none
    | some v =>
      match one_pole_highpass_go alpha y' (Frac.ofInt x) rest with
      | Option.none => Option.none
      | some l => some (v :: l)

def one_pole_highpass (samples : List Int) (alpha : Frac) : Option (List Int) :=
  one_pole_highpass_go alpha (Frac.ofInt 0) (Frac.ofInt 0) samples

/-- `_one_pole_lowpass` body: `y := y + α·(x − y)`, appended unclamped. -/
def one_pole_lowpass_go (alpha : Frac) : Frac → List Int → Option (List Int)
  | _, [] => some []
  | y, x :: rest =>
    let y' := y.add (alpha.mul ((Frac.ofInt x).sub y))
    match appendCheck y'.trunc with
    | Option.none => Option.none
    | some v =>
      match one_pole_lowpass_go alpha y' rest with
      | Option.none => Option.none
      | some l => some (v :: l)

def one_pole_lowpass (samples : List Int) (alpha : Frac) : Option (List Int) :=
  one_pole_lowpass_go alpha (Frac.ofInt 0) samples

/-- `_bitcrush`: `int(x) & ~((1 << b) − 1)` clears the low `b` bits; on
Python's two's-complement ints this equals `2^b·⌊x/2^b⌋`.  The append is
unclamped in the source, so checked here. -/
def bitcrush (samples : List Int) (drop_bits : Nat) : Option (List Int) :=
  if drop_bits = 0 then some samples
  else samples.mapM (fun x => appendCheck ((2 ^ drop_bits) * Int.fdiv x (2 ^ drop_bits)))

/-- `_soft_clip`: `int(max(min(tanh(drive·x/32767)·32767, 32767), -32768))`. -/
def soft_clip (tanh : Frac → Frac) (samples : List Int) (drive : Frac) : List Int :=
  samples.map (fun x =>
    clampQtoInt ((tanh (drive.mul ((Frac.ofInt x).div (Frac.ofInt 32767)))).mul
      (Frac.ofInt 32767)))

/-- `_add_noise`: additive uniform noise at `level`, clamped. -/
def add_noise (rng : Nat → Frac) (samples : List Int) (level : Frac) : List Int :=
  if level.ble (Frac.ofInt 0) then samples
  else samples.mapIdx (fun i x =>
    clampQtoInt ((Frac.ofInt x).add (((rng i).mul (Frac.ofInt 32767)).mul level)))

/-- `_add_static_bursts`' while-loop, with fuel (each step consumes ≥ 1
sample, so fuel `samples.length` suffices). -/
def add_static_bursts_go (gate noise : Nat → Frac) (level prob : Frac)
    (burst_len : Nat) : Nat → Nat → Nat → List Int → List Int
  | 0, _, _, l => l
  | fuel + 1, gi, ni, l =>
    match l with
    | [] => []
    | x :: rest =>
      if (gate gi).blt prob then
        let blen := min burst_len (rest.length + 1)
        ((x :: rest).take blen).mapIdx (fun j y =>
          clampQtoInt ((Frac.ofInt y).add
            (((noise (ni + j)).mul (Frac.ofInt 32767)).mul level))) ++
          add_static_bursts_go gate noise level prob burst_len fuel (gi + 1)
            (ni + blen) ((x :: rest).drop blen)
      else
        x :: add_static_bursts_go gate noise level prob burst_len fuel (gi + 1) ni rest

/-- `_add_static_bursts`. -/
def add_static_bursts (gate noise : Nat → Frac) (samples : List Int)
    (level prob : Frac) (burst_len : Nat) : List Int :=
  if level.ble (Frac.ofInt 0) ∨ prob.ble (Frac.ofInt 0) then samples
  else add_static_bursts_go gate noise level prob burst_len samples.length 0 0 samples

/-- `_mix`: clamp `wet_mix` to [0, 1], then `int(clamp(a·(1−w) + b·w))` over
the zipped streams. -/
def mix_streams (dry wet : List Int) (wet_mix : Frac) : List Int :=
  let wm := if wet_mix.blt (Frac.ofInt 0) then Frac.ofInt 0
    else if (Frac.ofInt 1).blt wet_mix then Frac.ofInt 1 else wet_mix
  (dry.zip wet).map (fun ab =>
    clampQtoInt (((Frac.ofInt ab.1).mul ((Frac.ofInt 1).sub wm)).add
      ((Frac.ofInt ab.2).mul wm)))

/-- `_apply_dropouts`' while-loop, with fuel. -/
def apply_dropouts_go (gate : Nat → Frac) (randLen : Nat → Nat) (prob : Frac)
    (max_len : Nat) : Nat → Nat → Nat → List Int → List Int
  | 0, _, _, l => l
  | fuel + 1, gi, ri, l =>
    match l with
    | [] => []
    | x :: rest =>
      if (gate gi).blt prob then
        let drop := min (max 1 (min (randLen ri) max_len)) (rest.length + 1)
        List.replicate drop 0 ++
          apply_dropouts_go gate randLen prob max_len fuel (gi + 1) (ri + 1)
            ((x :: rest).drop drop)
      else x :: apply_dropouts_go gate randLen prob max_len fuel (gi + 1) ri rest

/-- `_apply_dropouts`. -/
def apply_dropouts (gate : Nat → Frac) (randLen : Nat → Nat) (samples : List Int)
    (prob : Frac) (max_len : Nat) : List Int :=
  if prob.ble (Frac.ofInt 0) ∨ max_len = 0 then samples
  else apply_dropouts_go gate randLen prob max_len samples.length 0 0 samples

/-- The gain loop of `apply_radio_profile`: `int(clamp(int(x·gain)))` (the
inner and outer truncations coincide on the clamped value). -/
def apply_gain (samples : List Int) (g : Frac) : List Int :=
  samples.map (fun x => clampQtoInt ((Frac.ofInt x).mul g))

/-- `_normalize_peak`: scale so the peak hits `target` of full scale. -/
def normalize_peak (samples : List Int) (target : Frac) : List Int :=
  if samples.isEmpty then samples
  else
    let peak := samples.foldl (fun acc x => max acc x.natAbs) 0
    if peak = 0 then samples
    else
      samples.map (fun x =>
        clampQtoInt ((Frac.ofInt x).mul
          ((target.mul (Frac.ofInt 32767)).div (Frac.ofInt peak))))

/-- `_fade_tail`: linearly fade the last `int(sr·tail_seconds)` samples
(assignments of in-range scaled values, hence unchecked). -/
def fade_tail (samples : List Int) (sample_rate : Nat) (tail_seconds : Frac) :
    List Int :=
  let count := ((Frac.ofInt sample_rate).mul tail_seconds).trunc
  if count ≤ 0 ∨ (samples.length : Int) < count then samples
  else
    let c := count.toNat
    samples.take (samples.length - c) ++
      (samples.drop (samples.length - c)).mapIdx (fun i x =>
        let factor := (Frac.ofInt 1).sub ((Frac.ofInt i).div (Frac.ofInt c))
        ((Frac.ofInt x).mul
          (if factor.blt (Frac.ofInt 0) then Frac.ofInt 0 else factor)).trunc)

/-- `_am_wobble`: slow amplitude modulation `1 − depth·(0.5 − 0.5·cos(2πf·t))`,
clamped. -/
def am_wobble (cos : Frac → Frac) (pi : Frac) (samples : List Int)
    (sample_rate : Nat) (depth rate_hz : Frac) : List Int :=
  if depth.ble (Frac.ofInt 0) ∨ rate_hz.ble (Frac.ofInt 0) ∨ samples.isEmpty then
    samples
  else
    let depth := if depth.blt (Frac.ofInt 0) then Frac.ofInt 0
      else if (Frac.ofInt 1).blt depth then Frac.ofInt 1 else depth
    let two_pi_f := ((Frac.ofInt 2).mul pi).mul rate_hz
    samples.mapIdx (fun idx x =>
      let t := (Frac.ofInt idx).div (Frac.ofInt sample_rate)
      let m := (Frac.ofInt 1).sub (depth.mul ((⟨1, 2⟩ : Frac).sub
        ((⟨1, 2⟩ : Frac).mul (cos (two_pi_f.mul t)))))
      clampQtoInt (Frac.ofInt (((Frac.ofInt x).mul m).trunc)))

/-- The processing chain of `apply_radio_profile` after WAV decode, for a
known non-clean profile. -/
def radio_process (ext : RadioMath) (rng : RadioRng) (p : RadioPreset)
    (sr : Nat) (samples : List Int) : Option (List Int) :=
  let dt := (Frac.ofInt 1).div (Frac.ofInt sr)
  let pi_lit : Frac := ⟨314159, 100000⟩
  let hp_rc := (Frac.ofInt 1).div (((Frac.ofInt 2).mul pi_lit).mul p.hp)
  let lp_rc := (Frac.ofInt 1).div (((Frac.ofInt 2).mul pi_lit).mul p.lp)
  let hp_alpha := hp_rc.div (hp_rc.add dt)
  let lp_alpha := dt.div (lp_rc.add dt)
  match one_pole_highpass samples hp_alpha with
  | Option.none => Option.none
  | some band1 =>
    match one_pole_lowpass band1 lp_alpha with
    | Option.none => Option.none
    | some band =>
      match bitcrush band p.crush with
      | Option.none => Option.none
      | some wet0 =>
        let wet1 := soft_clip ext.tanh wet0 p.drive
        let wet2 := add_noise rng.noise wet1 p.hiss
        let burst_prob := p.bursts_per_s.div (Frac.ofInt sr)
        let burst_len := max 1 ((Frac.ofInt sr).mul p.burst_len_s).trunc.toNat
        let wet3 := add_static_bursts rng.burstGate rng.burstNoise wet2
          p.burst_level burst_prob burst_len
        let processed0 := mix_streams band wet3 p.wet
        let processed1 :=
          if (Frac.ofInt 0).blt p.drop_prob ∧ (Frac.ofInt 0).blt p.drop_len_s then
            apply_dropouts rng.dropGate rng.dropLen processed0 p.drop_prob
              (max 1 ((Frac.ofInt sr).mul p.drop_len_s).trunc.toNat)
          else processed0
        let processed2 := if p.gain.beq (Frac.ofInt 1) then processed1
          else apply_gain processed1 p.gain
        let processed3 := normalize_peak processed2 ⟨92, 100⟩
        let processed4 := fade_tail processed3 sr p.tail
        let processed5 :=
          if (Frac.ofInt 0).blt p.wobble_hz ∧ (Frac.ofInt 0).blt p.wobble_depth then
            am_wobble ext.cos ext.pi processed4 sr p.wobble_depth p.wobble_hz
          else processed4
        some processed5

/-- The decoded header and frames of a WAV byte-string. -/
structure WavInfo where
  nchannels : Nat
  sampwidth : Nat
  framerate : Nat
  samples : List Int

/-- `apply_radio_profile`.  `parse` models the stdlib `wave` reader (`none` =
parse exception, caught → passthrough); `encode` the final `wave` writer (its
try/except never fires for the total model).  An overall `none` models an
uncaught exception escaping the DSP chain. -/
def apply_radio_profile (parse : List Nat → Option WavInfo)
    (encode : List Int → Nat → List Nat) (ext : RadioMath) (rng : RadioRng)
    (audio_wav : List Nat) (profile : String) : Option (List Nat) :=
  if profile = "" ∨ profile = "clean" ∨ ¬ (profile ∈ RADIO_PROFILE_IDS) then
    some audio_wav
  else
    match parse audio_wav with
    | Option.none => some audio_wav
    | some w =>
      if w.sampwidth ≠ 2 ∨ w.nchannels ≠ 1 then some audio_wav
      else
        match radio_process ext rng (presets profile) w.framerate w.samples with
        | Option.none => Option.none
        | some out => some (encode out w.framerate)

/-! ### C7: passthrough for `clean` and unknown profiles -/

/-- C7 (confirmed): for every audio byte-string, every parser/encoder and
every oracle, `apply_radio_profile` returns the input unchanged (and raises
nothing) for the `"clean"` profile and for any profile name not in the
profile table. -/
theorem apply_radio_profile_passthrough
    (parse : List Nat → Option WavInfo) (encode : List Int → Nat → List Nat)
    (ext : RadioMath) (rng : RadioRng) (audio : List Nat) (profile : String)
    (hp : ¬ profile ∈ RADIO_PROFILE_IDS) :
    apply_radio_profile parse encode ext rng audio profile = some audio ∧
    apply_radio_profile parse encode ext rng audio "clean" = some audio := by
  constructor
  · rw [apply_radio_profile, if_pos (Or.inr (Or.inr hp))]
  · rw [apply_radio_profile, if_pos (Or.inr (Or.inl rfl))]

/-- Closed witness for `apply_radio_profile_passthrough` at the unknown
profile name `"static"`. -/
theorem apply_radio_profile_passthrough_witness :
    apply_radio_profile (fun _ => Option.none) (fun _ _ => [])
      ⟨fun _ => ⟨0, 1⟩, fun _ => ⟨0, 1⟩, ⟨0, 1⟩⟩
      ⟨fun _ => ⟨0, 1⟩, fun _ => ⟨0, 1⟩, fun _ => ⟨0, 1⟩, fun _ => ⟨0, 1⟩, fun _ => 0⟩
      [1, 2, 3] "static" = some [1, 2, 3] ∧
    apply_radio_profile (fun _ => Option.none) (fun _ _ => [])
      ⟨fun _ => ⟨0, 1⟩, fun _ => ⟨0, 1⟩, ⟨0, 1⟩⟩
      ⟨fun _ => ⟨0, 1⟩, fun _ => ⟨0, 1⟩, fun _ => ⟨0, 1⟩, fun _ => ⟨0, 1⟩, fun _ => 0⟩
      [1, 2, 3] "clean" = some [1, 2, 3] :=
  apply_radio_profile_passthrough _ _ _ _ [1, 2, 3] "static" (by decide)

/-! ### C3: the DSP chain can overflow int16 and raise -/

/-- C3 (code_bug): the claim (and the spec, and the function's own docstring
"Falls back to passthrough on error") require `apply_radio_profile` on a known
profile never to raise and to keep samples within int16 for input of any
amplitude; but on the full-scale square-wave input `[-32768, -32768, 32767]`
at 22050 Hz under the `"vhf"` profile, `_one_pole_highpass` computes
`int(α·(α²·(−32768) + 65535)) = 34837 > 32767` at the third sample and
`array("h").append` raises an uncaught `OverflowError` (the `try` blocks only
wrap the WAV decode and encode).  The model evaluates the call to `none`
(= exception), never reaching an output. -/
theorem apply_radio_profile_overflow :
    apply_radio_profile (fun _ => some ⟨1, 2, 22050, [-32768, -32768, 32767]⟩)
      (fun _ _ => []) ⟨fun _ => ⟨0, 1⟩, fun _ => ⟨0, 1⟩, ⟨0, 1⟩⟩
      ⟨fun _ => ⟨0, 1⟩, fun _ => ⟨0, 1⟩, fun _ => ⟨0, 1⟩, fun _ => ⟨0, 1⟩, fun _ => 0⟩
      [7] "vhf" = Option.none ∧
    one_pole_highpass [-32768, -32768, 32767]
      (let dt := (Frac.ofInt 1).div (Frac.ofInt 22050)
       let hp_rc := (Frac.ofInt 1).div
         (((Frac.ofInt 2).mul ⟨314159, 100000⟩).mul ⟨320, 1⟩)
       hp_rc.div (hp_rc.add dt)) = Option.none :=
  ⟨by decide, by decide⟩

end Aero
